import Mathlib

/-!
Verification of the voice-clone job orchestration subsystem of pocket-tts-cli.

The embedding follows the TypeScript sources:

* `src/site/src/routes/api/clone-voice/+server.ts` — request validation
  (`POST`), the streaming job runner (`runCommandStreaming`), the stage
  classifier (`inferCloneStageFromLine`), per-job stage tracking
  (`setStage`), the progress event stream, and download-cache eviction
  (`clearDownloadCacheForUrl`, `makeCacheStem`).
* `src/site/src/lib/server/voices.ts` — the voice registry
  (`listLocalVoices`, `isValidVoiceName`, `isValidVersion`).

JavaScript strings are modelled as Lean `String`/`List Char`; the byte
streams feeding the line buffer are modelled as lists of chunks of
characters.  Filesystem state is modelled explicitly as data passed to the
embedded functions.
-/

namespace PocketTTS

/-! ### JavaScript string primitives used by the source -/

/-- Models the whitespace class recognised by `String.prototype.trim` for the
ASCII range (space, tab, line feed, carriage return, vertical tab, form
feed), which covers all characters the server's line protocol produces. -/
def isJsSpace (c : Char) : Bool :=
  c = ' ' || c = '\t' || c = '\n' || c = '\r' || c = '\x0b' || c = '\x0c'

/-- Models `String.prototype.trim` on a character list: drop the whitespace
run at both ends. -/
def jsTrimChars (l : List Char) : List Char :=
  ((l.dropWhile isJsSpace).reverse.dropWhile isJsSpace).reverse

/-- Models `String.prototype.trim` on strings. -/
def jsTrim (s : String) : String :=
  ⟨jsTrimChars s.toList⟩

/-- Models `needle` being located at the start of `hay`
(`String.prototype.startsWith` at index 0). -/
def leadsWith : List Char → List Char → Bool
  | _, [] => true
  | [], _ :: _ => false
  | c :: cs, d :: ds => c = d && leadsWith cs ds

/-- Models `String.prototype.startsWith`. -/
def jsStartsWith (s pat : String) : Bool :=
  leadsWith s.toList pat.toList

/-- Models `String.prototype.includes`: the pattern occurs contiguously
somewhere in the string. -/
def jsIncludes (s pat : String) : Bool :=
  s.toList.tails.any (fun t => leadsWith t pat.toList)

/-- Models `String.prototype.toLowerCase` (the names it is applied to are
ASCII, where `Char.toLower` agrees with the JavaScript builtin). -/
def jsToLowerCase (s : String) : String :=
  ⟨s.toList.map Char.toLower⟩

/-- Models the JavaScript `a || b` fallback on strings, where the empty
string is the only falsy string. -/
def jsOrElse (a b : String) : String :=
  if a = "" then b else a

/-! ### The line buffer of `runCommandStreaming`
(`src/site/src/routes/api/clone-voice/+server.ts`, lines 52–103)

`flushBuffer` splits the accumulated buffer on the regular expression
`/\r\n|\n|\r/`, keeps the final fragment as the new buffer (unless
`force` is set, in which case everything is flushed), and delivers every
non-empty trimmed part to the `onLine` callback.  `splitCRLF` models the
JavaScript `split` call: alternatives are tried left to right at each
position, so a `"\r\n"` pair is consumed as a single terminator. -/

/-- Models `buffer.split(/\r\n|\n|\r/)`: the list of (possibly empty)
segments between line terminators, where `"\r\n"` counts as one
terminator.  The result is always non-empty. -/
def splitCRLF : List Char → List (List Char)
  | [] => [[]]
  | '\r' :: '\n' :: rest => [] :: splitCRLF rest
  | '\r' :: rest => [] :: splitCRLF rest
  | '\n' :: rest => [] :: splitCRLF rest
  | c :: rest => (splitCRLF rest).modifyHead (c :: ·)

/-- Carriage return and line feed are the characters the splitter treats as
terminators. -/
def isLineTerm (c : Char) : Bool := c = '\r' || c = '\n'

/-- The text ends with a carriage return. -/
def endsCR (l : List Char) : Bool := l.getLast? = some '\r'

/-- The text starts with a line feed. -/
def startsLF : List Char → Bool
  | '\n' :: _ => true
  | _ => false

/-- The per-part processing of `flushBuffer`: trim every part and keep the
non-empty ones, in order.  These are exactly the lines handed to `onLine`. -/
def emittedLines (parts : List (List Char)) : List (List Char) :=
  (parts.map jsTrimChars).filter (fun l => !l.isEmpty)

/-- State of one stream's line buffer inside `runCommandStreaming`: the
retained fragment and the lines delivered to the callback so far. -/
structure LineBufferState where
  buffer : List Char
  delivered : List (List Char)
deriving DecidableEq, Repr

/-- Models one call of `flushBuffer` on one stream: on the empty buffer
without `force` it is a no-op; otherwise it splits the buffer, keeps the
last segment as the remainder (or flushes it too under `force`) and
delivers the non-empty trimmed parts. -/
def flushBuffer (force : Bool) (st : LineBufferState) : LineBufferState :=
  if force = false ∧ st.buffer = [] then st
  else
    let parts0 := splitCRLF st.buffer
    let remainder := if force then [] else parts0.getLastD []
    let parts := if force then parts0 else parts0.dropLast
    { buffer := remainder
      delivered := st.delivered ++ emittedLines parts }

/-- Models one `data` event of a stream: append the chunk to the buffer and
flush without `force`. -/
def onDataChunk (st : LineBufferState) (chunk : List Char) : LineBufferState :=
  flushBuffer false { st with buffer := st.buffer ++ chunk }

/-- Models the life of one stream inside `runCommandStreaming`: every chunk
is appended and flushed, and the `close` handler performs a final forced
flush.  The result is the full sequence of lines given to `onLine`. -/
def streamLines (chunks : List (List Char)) : List (List Char) :=
  (flushBuffer true (chunks.foldl onDataChunk ⟨[], []⟩)).delivered

theorem splitCRLF_ne_nil (l : List Char) : splitCRLF l ≠ [] := by
  induction l using splitCRLF.induct with
  | _ => simp_all [splitCRLF]

theorem modifyHead_nil_append (xs : List (List Char)) :
    xs.modifyHead (([] : List Char) ++ ·) = xs := by
  cases xs <;> simp

theorem modifyHead_id_fun (xs : List (List Char)) :
    xs.modifyHead (fun x => x) = xs := by
  cases xs <;> simp

theorem splitCRLF_cons_notTerm (x : Char) (hx : isLineTerm x = false) (l : List Char) :
    splitCRLF (x :: l) = (splitCRLF l).modifyHead (x :: ·) := by
  simp only [isLineTerm, Bool.or_eq_false_iff, decide_eq_false_iff_not] at hx
  obtain ⟨h1, h2⟩ := hx
  cases l with
  | nil => simp [splitCRLF, h1, h2]
  | cons y ys => simp [splitCRLF, h1, h2]

theorem splitCRLF_cons_cr (rest : List Char) (h : startsLF rest = false) :
    splitCRLF ('\r' :: rest) = [] :: splitCRLF rest := by
  cases rest with
  | nil => simp [splitCRLF]
  | cons y ys =>
      have hy : y ≠ '\n' := by
        intro hEq; subst hEq; simp [startsLF] at h
      simp [splitCRLF, hy]

theorem splitCRLF_cons_lf (rest : List Char) :
    splitCRLF ('\n' :: rest) = [] :: splitCRLF rest := by
  simp [splitCRLF]

theorem splitCRLF_prepend (b : List Char) (hb : ∀ c ∈ b, isLineTerm c = false)
    (l : List Char) :
    splitCRLF (b ++ l) = (splitCRLF l).modifyHead (b ++ ·) := by
  induction b with
  | nil => rw [List.nil_append, modifyHead_nil_append]
  | cons x b ih =>
      have hx : isLineTerm x = false := hb x (by simp)
      have hb' : ∀ c ∈ b, isLineTerm c = false := fun c hc => hb c (by simp [hc])
      rw [List.cons_append, splitCRLF_cons_notTerm x hx, ih hb']
      cases h : splitCRLF l with
      | nil => exact absurd h (splitCRLF_ne_nil l)
      | cons s ss => simp

theorem startsLF_false_of_not_lf (y : Char) (ys : List Char) (hy : y ≠ '\n') :
    startsLF (y :: ys) = false := by
  cases hc : startsLF (y :: ys) with
  | false => rfl
  | true =>
      exfalso
      cases hyn : (decide (y = '\n')) with
      | true => exact hy (of_decide_eq_true hyn)
      | false =>
          have : startsLF (y :: ys) = false := by
            unfold startsLF
            split
            · next heq => exact absurd (List.cons.inj heq).1 hy
            · rfl
          rw [this] at hc
          exact Bool.false_ne_true hc

theorem noTerm_of_splitCRLF_singleton (l : List Char)
    (h : (splitCRLF l).length = 1) : ∀ c ∈ l, isLineTerm c = false := by
  induction l using splitCRLF.induct with
  | case1 => simp
  | case2 rest ih =>
      rw [show splitCRLF ('\r' :: '\n' :: rest) = [] :: splitCRLF rest from by
        simp [splitCRLF]] at h
      have h0 : (splitCRLF rest).length = 0 := by simpa using h
      exact absurd (List.length_eq_zero.mp h0) (splitCRLF_ne_nil rest)
  | case3 rest hne ih =>
      have hs : startsLF rest = false := by
        cases rest with
        | nil => simp [startsLF]
        | cons y ys =>
            have hy : y ≠ '\n' := fun hEq => hne ys (by rw [hEq])
            exact startsLF_false_of_not_lf y ys hy
      rw [splitCRLF_cons_cr rest hs] at h
      have h0 : (splitCRLF rest).length = 0 := by simpa using h
      exact absurd (List.length_eq_zero.mp h0) (splitCRLF_ne_nil rest)
  | case4 rest ih =>
      rw [splitCRLF_cons_lf rest] at h
      have h0 : (splitCRLF rest).length = 0 := by simpa using h
      exact absurd (List.length_eq_zero.mp h0) (splitCRLF_ne_nil rest)
  | case5 x rest h2 hr hn ih =>
      have hx : isLineTerm x = false := by
        simp only [isLineTerm, Bool.or_eq_false_iff, decide_eq_false_iff_not]
        exact ⟨hr, hn⟩
      rw [splitCRLF_cons_notTerm x hx] at h
      intro c hc
      rcases List.mem_cons.mp hc with hc | hc
      · subst hc; exact hx
      · refine ih ?_ c hc
        cases hrest : splitCRLF rest with
        | nil => exact absurd hrest (splitCRLF_ne_nil rest)
        | cons s0 ss =>
            rw [hrest] at h
            simpa using h

theorem endsCR_false_of_noTerm (l : List Char)
    (h : ∀ c ∈ l, isLineTerm c = false) : endsCR l = false := by
  cases hl : l.getLast? with
  | none => simp [endsCR, hl]
  | some a =>
      have ha : a ∈ l := List.mem_of_getLast?_eq_some hl
      have := h a ha
      simp only [endsCR, hl]
      simp only [isLineTerm, Bool.or_eq_false_iff, decide_eq_false_iff_not] at this
      simp [this.1]

theorem getLastD_irrel {α : Type} (ss : List α) (hss : ss ≠ []) (d1 d2 : α) :
    ss.getLastD d1 = ss.getLastD d2 := by
  rw [List.getLastD_eq_getLast?, List.getLastD_eq_getLast?]
  cases h : ss.getLast? with
  | none => exact absurd (List.getLast?_eq_none_iff.mp h) hss
  | some a => simp

theorem modifyHead_cons_append {α : Type} (x : α) (s : List α) (C : List (List α)) :
    (C.modifyHead (s ++ ·)).modifyHead (x :: ·) = C.modifyHead ((x :: s) ++ ·) := by
  cases C <;> simp

theorem endsCR_cons_cons (a b : Char) (l : List Char) :
    endsCR (a :: b :: l) = endsCR (b :: l) := by
  simp [endsCR]

theorem splitCRLF_append (t c : List Char) :
    splitCRLF (t ++ c) =
      if endsCR t = true ∧ startsLF c = true then
        (splitCRLF t).dropLast ++ (splitCRLF c).tail
      else
        (splitCRLF t).dropLast ++ (splitCRLF c).modifyHead ((splitCRLF t).getLastD [] ++ ·) := by
  induction t using splitCRLF.induct with
  | case1 =>
      have h1 : endsCR [] = false := by simp [endsCR]
      rw [List.nil_append]
      simp [splitCRLF, h1, modifyHead_id_fun]
  | case2 rest ih =>
      have hsplit : splitCRLF ('\r' :: '\n' :: rest) = [] :: splitCRLF rest := by
        simp [splitCRLF]
      cases rest with
      | nil =>
          have hE : endsCR ['\r', '\n'] = false := by simp [endsCR]
          rw [show ('\r' :: '\n' :: ([] : List Char)) ++ c = '\r' :: '\n' :: c from rfl]
          rw [show splitCRLF ('\r' :: '\n' :: c) = [] :: splitCRLF c from by simp [splitCRLF]]
          rw [hsplit, hE]
          simp [splitCRLF, modifyHead_id_fun]
      | cons r0 rs =>
          have hE : endsCR ('\r' :: '\n' :: r0 :: rs) = endsCR (r0 :: rs) := by
            rw [endsCR_cons_cons, endsCR_cons_cons]
          have hne : splitCRLF (r0 :: rs) ≠ [] := splitCRLF_ne_nil _
          rw [show ('\r' :: '\n' :: r0 :: rs) ++ c = '\r' :: '\n' :: ((r0 :: rs) ++ c) from rfl]
          rw [show splitCRLF ('\r' :: '\n' :: ((r0 :: rs) ++ c)) =
              [] :: splitCRLF ((r0 :: rs) ++ c) from by simp [splitCRLF]]
          rw [ih, hsplit, hE]
          split_ifs with h
          · rw [List.dropLast_cons_of_ne_nil hne, List.cons_append]
          · rw [List.dropLast_cons_of_ne_nil hne, List.getLastD_cons, List.cons_append]
  | case3 rest hno ih =>
      have hsLF : startsLF rest = false := by
        cases rest with
        | nil => simp [startsLF]
        | cons y ys => exact startsLF_false_of_not_lf y ys (fun hEq => hno ys (by rw [hEq]))
      have hsplit : splitCRLF ('\r' :: rest) = [] :: splitCRLF rest :=
        splitCRLF_cons_cr rest hsLF
      cases rest with
      | nil =>
          have hE : endsCR ['\r'] = true := by simp [endsCR]
          rw [List.cons_append, List.nil_append]
          cases c with
          | nil => decide
          | cons c0 cs =>
              cases hc0 : (decide (c0 = '\n')) with
              | true =>
                  have hc0' : c0 = '\n' := of_decide_eq_true hc0
                  subst hc0'
                  have hLF : startsLF ('\n' :: cs) = true := by simp [startsLF]
                  rw [show splitCRLF ('\r' :: '\n' :: cs) = [] :: splitCRLF cs from by
                    simp [splitCRLF]]
                  rw [hsplit, hE, hLF]
                  simp [splitCRLF, splitCRLF_cons_lf]
              | false =>
                  have hc0' : c0 ≠ '\n' := of_decide_eq_false hc0
                  have hLF : startsLF (c0 :: cs) = false := startsLF_false_of_not_lf c0 cs hc0'
                  rw [show splitCRLF ('\r' :: c0 :: cs) = [] :: splitCRLF (c0 :: cs) from
                    splitCRLF_cons_cr _ hLF]
                  rw [hsplit, hE, hLF]
                  simp [splitCRLF, modifyHead_id_fun]
      | cons r0 rs =>
          have hE : endsCR ('\r' :: r0 :: rs) = endsCR (r0 :: rs) := endsCR_cons_cons _ _ _
          have hne : splitCRLF (r0 :: rs) ≠ [] := splitCRLF_ne_nil _
          have hr0 : r0 ≠ '\n' := fun hEq => hno rs (by rw [hEq])
          have hsLF2 : startsLF ((r0 :: rs) ++ c) = false := by
            rw [List.cons_append]
            exact startsLF_false_of_not_lf r0 _ hr0
          rw [List.cons_append]
          rw [splitCRLF_cons_cr _ hsLF2]
          rw [ih, hsplit, hE]
          split_ifs with h
          · rw [List.dropLast_cons_of_ne_nil hne, List.cons_append]
          · rw [List.dropLast_cons_of_ne_nil hne, List.getLastD_cons, List.cons_append]
  | case4 rest ih =>
      have hsplit : splitCRLF ('\n' :: rest) = [] :: splitCRLF rest := splitCRLF_cons_lf rest
      cases rest with
      | nil =>
          have hE : endsCR ['\n'] = false := by simp [endsCR]
          rw [List.cons_append, List.nil_append, splitCRLF_cons_lf, hsplit, hE]
          simp [splitCRLF, modifyHead_id_fun]
      | cons r0 rs =>
          have hE : endsCR ('\n' :: r0 :: rs) = endsCR (r0 :: rs) := endsCR_cons_cons _ _ _
          have hne : splitCRLF (r0 :: rs) ≠ [] := splitCRLF_ne_nil _
          rw [List.cons_append, splitCRLF_cons_lf, ih, hsplit, hE]
          split_ifs with h
          · rw [List.dropLast_cons_of_ne_nil hne, List.cons_append]
          · rw [List.dropLast_cons_of_ne_nil hne, List.getLastD_cons, List.cons_append]
  | case5 x rest h2 hr hn ih =>
      have hx : isLineTerm x = false := by
        simp only [isLineTerm, Bool.or_eq_false_iff, decide_eq_false_iff_not]
        exact ⟨hr, hn⟩
      have hsplit : splitCRLF (x :: rest) = (splitCRLF rest).modifyHead (x :: ·) :=
        splitCRLF_cons_notTerm x hx rest
      rw [List.cons_append, splitCRLF_cons_notTerm x hx, ih]
      cases hrest : splitCRLF rest with
      | nil => exact absurd hrest (splitCRLF_ne_nil rest)
      | cons s ss =>
          cases ss with
          | nil =>
              have hnoT : ∀ ch ∈ rest, isLineTerm ch = false :=
                noTerm_of_splitCRLF_singleton rest (by rw [hrest]; rfl)
              have hE : endsCR rest = false := endsCR_false_of_noTerm rest hnoT
              have hEx : endsCR (x :: rest) = false := by
                cases rest with
                | nil =>
                    simp [endsCR]
                    exact hr
                | cons r0 rs => rw [endsCR_cons_cons]; exact hE
              rw [hsplit, hrest, hE, hEx]
              simp only [Bool.false_eq_true, false_and, if_false, List.modifyHead_cons,
                List.dropLast_single, List.nil_append]
              rw [show ([s] : List (List Char)).getLastD [] = s from rfl,
                show ([x :: s] : List (List Char)).getLastD [] = x :: s from rfl]
              exact modifyHead_cons_append x s (splitCRLF c)
          | cons s1 ss1 =>
              have hssne : (s1 :: ss1) ≠ ([] : List (List Char)) := by simp
              have hEx : endsCR (x :: rest) = endsCR rest := by
                cases rest with
                | nil =>
                    rw [show splitCRLF ([] : List Char) = [[]] from rfl] at hrest
                    exact absurd hrest (by simp)
                | cons r0 rs => exact endsCR_cons_cons _ _ _
              rw [hsplit, hrest, hEx]
              split_ifs with h
              · rw [List.dropLast_cons_of_ne_nil hssne, List.modifyHead_cons,
                  List.dropLast_cons_of_ne_nil hssne, List.cons_append, List.cons_append,
                  List.modifyHead_cons]
              · rw [List.dropLast_cons_of_ne_nil hssne, List.modifyHead_cons,
                  List.dropLast_cons_of_ne_nil hssne, List.cons_append, List.cons_append,
                  List.getLastD_cons, List.getLastD_cons, List.getLastD_cons,
                  List.getLastD_cons, List.modifyHead_cons]

theorem emittedLines_append (a b : List (List Char)) :
    emittedLines (a ++ b) = emittedLines a ++ emittedLines b := by
  simp [emittedLines]

theorem emittedLines_nil_cons (b : List (List Char)) :
    emittedLines ([] :: b) = emittedLines b := by
  simp [emittedLines, jsTrimChars]

theorem noTerm_getLastD (l : List Char) :
    ∀ c ∈ (splitCRLF l).getLastD [], isLineTerm c = false := by
  induction l using splitCRLF.induct with
  | case1 => simp [splitCRLF]
  | case2 rest ih =>
      rw [show splitCRLF ('\r' :: '\n' :: rest) = [] :: splitCRLF rest from by
        simp [splitCRLF], List.getLastD_cons]
      intro c hc
      exact ih c (by
        rw [getLastD_irrel (splitCRLF rest) (splitCRLF_ne_nil rest) [] []] at hc ⊢
        exact hc)
  | case3 rest hno ih =>
      have hsLF : startsLF rest = false := by
        cases rest with
        | nil => simp [startsLF]
        | cons y ys => exact startsLF_false_of_not_lf y ys (fun hEq => hno ys (by rw [hEq]))
      rw [splitCRLF_cons_cr rest hsLF, List.getLastD_cons]
      exact ih
  | case4 rest ih =>
      rw [splitCRLF_cons_lf rest, List.getLastD_cons]
      exact ih
  | case5 x rest h2 hr hn ih =>
      have hx : isLineTerm x = false := by
        simp only [isLineTerm, Bool.or_eq_false_iff, decide_eq_false_iff_not]
        exact ⟨hr, hn⟩
      rw [splitCRLF_cons_notTerm x hx]
      cases hrest : splitCRLF rest with
      | nil => exact absurd hrest (splitCRLF_ne_nil rest)
      | cons s ss =>
          rw [hrest] at ih
          cases ss with
          | nil =>
              rw [List.modifyHead_cons]
              intro c hc
              rcases List.mem_cons.mp (by simpa using hc) with hc' | hc'
              · subst hc'; exact hx
              · exact ih c (by simpa using hc')
          | cons s1 ss1 =>
              rw [List.modifyHead_cons, List.getLastD_cons]
              rw [List.getLastD_cons] at ih
              intro c hc
              exact ih c (by
                rw [getLastD_irrel (s1 :: ss1) (by simp) (x :: s) s] at hc
                exact hc)

theorem endsCR_getLastD_nil (l : List Char) (h : endsCR l = true) :
    (splitCRLF l).getLastD [] = [] := by
  induction l using splitCRLF.induct with
  | case1 => simp [endsCR] at h
  | case2 rest ih =>
      cases rest with
      | nil => simp [endsCR] at h
      | cons r0 rs =>
          rw [endsCR_cons_cons, endsCR_cons_cons] at h
          rw [show splitCRLF ('\r' :: '\n' :: r0 :: rs) = [] :: splitCRLF (r0 :: rs) from by
            simp [splitCRLF], List.getLastD_cons]
          exact ih h
  | case3 rest hno ih =>
      cases rest with
      | nil => rfl
      | cons r0 rs =>
          have hsLF : startsLF (r0 :: rs) = false :=
            startsLF_false_of_not_lf r0 rs (fun hEq => hno rs (by rw [hEq]))
          rw [endsCR_cons_cons] at h
          rw [splitCRLF_cons_cr _ hsLF, List.getLastD_cons]
          exact ih h
  | case4 rest ih =>
      cases rest with
      | nil => simp [endsCR] at h
      | cons r0 rs =>
          rw [endsCR_cons_cons] at h
          rw [splitCRLF_cons_lf, List.getLastD_cons]
          exact ih h
  | case5 x rest h2 hr hn ih =>
      have hx : isLineTerm x = false := by
        simp only [isLineTerm, Bool.or_eq_false_iff, decide_eq_false_iff_not]
        exact ⟨hr, hn⟩
      cases rest with
      | nil =>
          exfalso
          apply hr
          simpa [endsCR] using h
      | cons r0 rs =>
          rw [endsCR_cons_cons] at h
          rw [splitCRLF_cons_notTerm x hx]
          cases hrest : splitCRLF (r0 :: rs) with
          | nil => exact absurd hrest (splitCRLF_ne_nil _)
          | cons s ss =>
              have ihv := ih h
              rw [hrest] at ihv
              cases ss with
              | nil =>
                  exfalso
                  have hnoT : ∀ ch ∈ r0 :: rs, isLineTerm ch = false :=
                    noTerm_of_splitCRLF_singleton _ (by rw [hrest]; rfl)
                  rw [endsCR_false_of_noTerm _ hnoT] at h
                  exact Bool.false_ne_true h
              | cons s1 ss1 =>
                  rw [List.modifyHead_cons, List.getLastD_cons]
                  rw [List.getLastD_cons] at ihv
                  rw [getLastD_irrel (s1 :: ss1) (by simp) (x :: s) s]
                  exact ihv

theorem splitCRLF_noTerm_eq (b : List Char) (hb : ∀ c ∈ b, isLineTerm c = false) :
    splitCRLF b = [b] := by
  have h := splitCRLF_prepend b hb []
  rw [List.append_nil] at h
  rw [h]
  simp [splitCRLF]

theorem startsLF_iff (c : List Char) : startsLF c = true ↔ ∃ cs, c = '\n' :: cs := by
  constructor
  · intro h
    cases c with
    | nil => simp [startsLF] at h
    | cons y ys =>
        by_cases hy : y = '\n'
        · exact ⟨ys, by rw [hy]⟩
        · rw [startsLF_false_of_not_lf y ys hy] at h
          exact absurd h (by simp)
  · rintro ⟨cs, rfl⟩
    simp [startsLF]

theorem getLastD_append_right {α : Type} (A B : List α) (hB : B ≠ []) (d : α) :
    (A ++ B).getLastD d = B.getLastD d := by
  rw [List.getLastD_eq_getLast?, List.getLastD_eq_getLast?,
    List.getLast?_append_of_ne_nil A hB]

theorem onDataChunk_invariant (t c : List Char) :
    onDataChunk ⟨(splitCRLF t).getLastD [], emittedLines (splitCRLF t).dropLast⟩ c =
      ⟨(splitCRLF (t ++ c)).getLastD [], emittedLines (splitCRLF (t ++ c)).dropLast⟩ := by
  have hbNoTerm := noTerm_getLastD t
  simp only [onDataChunk, flushBuffer, Bool.false_eq_true, if_false, eq_self_iff_true, true_and]
  by_cases hEmpty : (splitCRLF t).getLastD [] ++ c = []
  · rcases List.append_eq_nil.mp hEmpty with ⟨hb, hc⟩
    subst hc
    rw [if_pos hEmpty, List.append_nil, List.append_nil]
  · rw [if_neg hEmpty]
    by_cases hCR : endsCR t = true ∧ startsLF c = true
    · obtain ⟨hE, hLF⟩ := hCR
      obtain ⟨cs, rfl⟩ := (startsLF_iff c).mp hLF
      have hb : (splitCRLF t).getLastD [] = [] := endsCR_getLastD_nil t hE
      have hne : splitCRLF cs ≠ [] := splitCRLF_ne_nil cs
      have hTC : splitCRLF (t ++ '\n' :: cs) =
          (splitCRLF t).dropLast ++ (splitCRLF ('\n' :: cs)).tail := by
        rw [splitCRLF_append]
        simp [hE, hLF]
      rw [hb, List.nil_append, splitCRLF_cons_lf, hTC, splitCRLF_cons_lf]
      simp only [List.tail_cons]
      rw [List.getLastD_cons, List.dropLast_cons_of_ne_nil hne, emittedLines_nil_cons,
        getLastD_append_right _ _ hne, List.dropLast_append_of_ne_nil _ hne,
        emittedLines_append]
    · have hTC : splitCRLF (t ++ c) = (splitCRLF t).dropLast ++
          (splitCRLF c).modifyHead ((splitCRLF t).getLastD [] ++ ·) := by
        rw [splitCRLF_append]
        simp only [if_neg hCR]
      have hne : (splitCRLF c).modifyHead ((splitCRLF t).getLastD [] ++ ·) ≠ [] := by
        cases h : splitCRLF c with
        | nil => exact absurd h (splitCRLF_ne_nil c)
        | cons s ss => simp
      rw [splitCRLF_prepend _ hbNoTerm c, hTC,
        getLastD_append_right _ _ hne, List.dropLast_append_of_ne_nil _ hne,
        emittedLines_append]

theorem dropLast_append_getLastD {α : Type} (S : List α) (h : S ≠ []) (d : α) :
    S.dropLast ++ [S.getLastD d] = S := by
  rw [List.getLastD_eq_getLast?, List.getLast?_eq_getLast S h]
  exact List.dropLast_concat_getLast h

theorem foldl_onDataChunk (chunks : List (List Char)) :
    chunks.foldl onDataChunk ⟨[], []⟩ =
      ⟨(splitCRLF chunks.flatten).getLastD [],
        emittedLines (splitCRLF chunks.flatten).dropLast⟩ := by
  induction chunks using List.reverseRecOn with
  | nil => simp [splitCRLF, emittedLines]
  | append_singleton cs c ih =>
      rw [List.foldl_append, List.foldl_cons, List.foldl_nil, ih, onDataChunk_invariant]
      simp

/-- The lines `runCommandStreaming` delivers for one stream are a pure
function of the concatenated stream text: the non-empty trimmed segments of
the full text split on line terminators. -/
theorem streamLines_eq_single (chunks : List (List Char)) :
    streamLines chunks = emittedLines (splitCRLF chunks.flatten) := by
  rw [streamLines, foldl_onDataChunk, flushBuffer]
  simp only [Bool.true_eq_false, false_and, if_false, if_true, eq_self_iff_true]
  rw [splitCRLF_noTerm_eq _ (noTerm_getLastD chunks.flatten)]
  rw [← emittedLines_append]
  rw [dropLast_append_getLastD _ (splitCRLF_ne_nil _) []]


/-! ### Stage classifier and progress events
(`src/site/src/routes/api/clone-voice/+server.ts`, lines 12–36 and 105–139) -/

/-- The lifecycle stages of a clone job (`CloneStage`). -/
inductive CloneStage where
  | starting
  | downloading_media
  | extracting_audio
  | cloning_voice
  | saving_profile
  | finalizing
deriving DecidableEq, Repr

/-- The two validated source modes (`CloneSourceMode`). -/
inductive CloneSourceMode where
  | url
  | file
deriving DecidableEq, Repr

/-- One event of the progress stream (`CloneStreamEvent`). -/
inductive CloneStreamEvent where
  | stage (stage : CloneStage) (message : String)
  | result (voiceName : String) (version : Nat) (cloneDir : String)
  | error (error : String)
deriving DecidableEq, Repr

/-- Models `inferCloneStageFromLine` (lines 105–130): case-insensitive
substring triggers, tried in the fixed source order. -/
def inferCloneStageFromLine (line : String) : Option CloneStage :=
  let lower := jsToLowerCase line
  if jsIncludes lower "downloading source audio" || jsIncludes lower "yt-dlp" ||
      jsIncludes lower "[download]" then
    some .downloading_media
  else if jsIncludes lower "extracting voice prompt clip" || jsIncludes lower "ffmpeg" then
    some .extracting_audio
  else if jsIncludes lower "exporting voice embedding" ||
      jsIncludes lower "export-voice-embedding" then
    some .cloning_voice
  else if jsIncludes lower "saved voice wav profile" ||
      jsIncludes lower "saved voice safetensors profile" then
    some .saving_profile
  else if jsIncludes lower "all jobs completed" then
    some .finalizing
  else
    none

/-- Models `stageMessage` (lines 132–139). -/
def stageMessage (stage : CloneStage) : String :=
  if stage = .starting then "Starting clone job..."
  else if stage = .downloading_media then "Downloading media..."
  else if stage = .extracting_audio then "Extracting audio clip..."
  else if stage = .cloning_voice then "Cloning voice embedding..."
  else if stage = .saving_profile then "Saving voice profile..."
  else "Finalizing clone..."

/-! ### Voice registry
(`src/site/src/lib/server/voices.ts`; `voice-clones.ts` holds a second copy
of the same `listLocalVoices` over a different root) -/

/-- One result row of `listLocalVoices` (`LocalVoice`). -/
structure LocalVoice where
  name : String
  version : Nat
  relativeSafetensorsPath : String
deriving DecidableEq, Repr

/-- One entry returned by `readdir(..., { withFileTypes: true })`. -/
structure FSDirEntry where
  name : String
  isDirectory : Bool
deriving DecidableEq, Repr

/-- The filesystem state visible to `listLocalVoices` under one registry
root: the root directory listing, the per-name subdirectory listings
(`readdir` failure is modelled as the empty list, matching the
`.catch(() => [])` in the source), and existence of
`<root>/<name>/<version>/voice.safetensors`. -/
structure VoicesRootFS where
  entries : List FSDirEntry
  subEntries : String → List FSDirEntry
  safetensorsExists : String → Nat → Bool

/-- Models `VOICE_NAME_PATTERN = /^[A-Za-z0-9_]+$/` membership of one
character. -/
def isVoiceNameChar (c : Char) : Bool :=
  ('A' ≤ c && c ≤ 'Z') || ('a' ≤ c && c ≤ 'z') || ('0' ≤ c && c ≤ '9') || c = '_'

/-- Models `isValidVoiceName` (voices.ts line 31): the full-string match of
`/^[A-Za-z0-9_]+$/`. -/
def isValidVoiceName (s : String) : Bool :=
  !s.isEmpty && s.toList.all isVoiceNameChar

/-- Models `isValidVersion` (voices.ts line 35): the full-string match of
`/^[1-9][0-9]*$/`. -/
def isValidVersion (s : String) : Bool :=
  match s.toList with
  | [] => false
  | c :: cs => ('1' ≤ c && c ≤ '9') && cs.all (fun d => '0' ≤ d && d ≤ '9')

/-- Models `Number(entry.name)` on the validated all-digit version strings:
the decimal value. -/
def jsNumberNat (s : String) : Nat :=
  s.toList.foldl (fun acc c => acc * 10 + (c.toNat - '0'.toNat)) 0

/-- The decimal digits of a positive number, most significant first, with
enough fuel; `natDecimalDigits fuel 0 = []`. -/
def natDecimalDigits : Nat → Nat → List Char
  | 0, _ => []
  | fuel + 1, n =>
      if n = 0 then []
      else natDecimalDigits fuel (n / 10) ++ [Char.ofNat (48 + n % 10)]

/-- Models the JavaScript number-to-string conversion `String(version)` on
natural numbers: the canonical decimal representation. -/
def natToDecimal (n : Nat) : String :=
  if n = 0 then "0" else ⟨natDecimalDigits (n + 1) n⟩

/-- Lexicographic strict comparison of character lists by code point. -/
def charListLt : List Char → List Char → Bool
  | [], [] => false
  | [], _ :: _ => true
  | _ :: _, [] => false
  | c :: cs, d :: ds => c < d || (c = d && charListLt cs ds)

/-- Models `String.prototype.localeCompare` as a total order on strings.
The registry compares distinct ASCII identifiers, for which only the
total-order structure of the collation is observable; the lexicographic
order on strings stands in for the locale collation. -/
def localeCompare (a b : String) : Int :=
  if charListLt a.data b.data then -1
  else if charListLt b.data a.data then 1 else 0

/-- Models the final sort comparator of `listLocalVoices` (voices.ts lines
80–84): name order first, then descending version. -/
def compareVoices (a b : LocalVoice) : Int :=
  let nameOrder := localeCompare a.name b.name
  if nameOrder ≠ 0 then nameOrder else (b.version : Int) - (a.version : Int)

/-- Models the inner numeric comparator `(a, b) => b - a` (voices.ts line
59). -/
def compareVersionsDesc (a b : Nat) : Int :=
  (b : Int) - (a : Int)

/-- Models `Array.prototype.sort` with a comparator: a stable comparison
sort placing `a` before `b` whenever the comparator is non-positive. -/
def jsSortBy {α : Type} (cmp : α → α → Int) (l : List α) : List α :=
  List.insertionSort (fun a b => cmp a b ≤ 0) l

/-- The rows pushed into the `voices` array by the nested loops of
`listLocalVoices` (voices.ts lines 45–78), in loop order: directory
entries with valid names, their version directories with valid version
strings sorted descending, kept only when `voice.safetensors` exists. -/
def voiceRows (fs : VoicesRootFS) : List LocalVoice :=
  fs.entries.flatMap (fun voiceEntry =>
    if voiceEntry.isDirectory && isValidVoiceName voiceEntry.name then
      let versionEntries := fs.subEntries voiceEntry.name
      let versions :=
        jsSortBy compareVersionsDesc
          ((versionEntries.filter
              (fun e => e.isDirectory && isValidVersion e.name)).map
            (fun e => jsNumberNat e.name))
      (versions.filter (fun v => fs.safetensorsExists voiceEntry.name v)).map
        (fun v =>
          { name := voiceEntry.name
            version := v
            relativeSafetensorsPath :=
              voiceEntry.name ++ "/" ++ natToDecimal v ++ "/voice.safetensors" })
    else [])

/-- Models `listLocalVoices` (voices.ts lines 39–85) over an explicit
filesystem state: the collected rows, sorted by the final comparator. -/
def listLocalVoices (fs : VoicesRootFS) : List LocalVoice :=
  jsSortBy compareVoices (voiceRows fs)

/-! ### Download cache eviction
(`src/site/src/routes/api/clone-voice/+server.ts`, lines 141–168) -/

/-- Models `makeCacheStem` (lines 141–147).  The SHA-256 hex digest of the
trimmed source reference is a Node builtin, abstracted as the `sha256hex`
parameter; the stem is `source_` followed by its first 20 hex characters. -/
def makeCacheStem (sha256hex : String → String) (sourceUrl : String) : String :=
  "source_" ++ String.mk ((sha256hex (jsTrim sourceUrl)).toList.take 20)

/-- Models `cacheStem.replace(/^source_/, "youtube_")` (line 152). -/
def replaceLeadingSource (s : String) : String :=
  if jsStartsWith s "source_" then "youtube_" ++ String.mk (s.toList.drop 7) else s

/-- Models the target filter of `clearDownloadCacheForUrl` (lines 154–160):
a directory entry is deleted when it is the stem itself or the stem
followed by a dot, under either naming convention. -/
def cacheEvictionTargets (cacheStem legacyStem : String) (entries : List String) :
    List String :=
  entries.filter (fun name =>
    jsStartsWith name (cacheStem ++ ".") || jsStartsWith name (legacyStem ++ ".") ||
    name = cacheStem || name = legacyStem)

/-- Models `clearDownloadCacheForUrl` (lines 149–168) as a transformer of
the downloads-directory listing: every target whose `unlink` succeeds is
removed; an `unlink` failure is swallowed (`.catch(() => ...)`) and leaves
that file in place without affecting the other deletions.  The returned
list is the remaining directory content. -/
def clearDownloadCacheForUrl (sha256hex : String → String) (sourceUrl : String)
    (entries : List String) (unlinkFails : String → Bool) : List String :=
  let cacheStem := makeCacheStem sha256hex sourceUrl
  let legacyStem := replaceLeadingSource cacheStem
  let targets := cacheEvictionTargets cacheStem legacyStem entries
  targets.foldl (fun dir name => if unlinkFails name then dir else dir.erase name) entries

/-! ### The streaming orchestrator
(`src/site/src/routes/api/clone-voice/+server.ts`, lines 170–354) -/

/-- Per-request mutable stream state: `currentStage` and the events
enqueued so far, in order. -/
structure StreamState where
  currentStage : Option CloneStage
  events : List CloneStreamEvent
deriving DecidableEq, Repr

/-- Models `emit` (lines 253–256): enqueue one encoded event. -/
def emit (st : StreamState) (e : CloneStreamEvent) : StreamState :=
  { st with events := st.events ++ [e] }

/-- Models `setStage` (lines 258–266): a stage equal to the current one is
ignored; otherwise the current stage is updated and a stage event is
emitted. -/
def setStage (st : StreamState) (stage : CloneStage) : StreamState :=
  if st.currentStage = some stage then st
  else emit { st with currentStage := some stage } (.stage stage (stageMessage stage))

/-- Models the `onLine` callback of the orchestrator (lines 276–281): run
the classifier and forward any inferred stage. -/
def applyLine (st : StreamState) (line : String) : StreamState :=
  match inferCloneStageFromLine line with
  | some inferredStage => setStage st inferredStage
  | none => st

/-- The classifier callback applied to every captured line in order. -/
def applyLines (st : StreamState) (lines : List String) : StreamState :=
  lines.foldl applyLine st

/-- Models lines 269–274: the `starting` stage followed by the initial
guess stage for the source mode, emitted before any process output. -/
def initialStageState (sourceMode : CloneSourceMode) : StreamState :=
  setStage (setStage ⟨none, []⟩ .starting)
    (if sourceMode = .url then .downloading_media else .extracting_audio)

/-- Models splitting on the line-feed character (`message.split` with a
plain one-character separator). -/
def splitOnLF : List Char → List (List Char)
  | [] => [[]]
  | '\n' :: rest => [] :: splitOnLF rest
  | c :: rest => (splitOnLF rest).modifyHead (c :: ·)

/-- Models joining parts back with a line-feed separator. -/
def joinWithLF : List (List Char) → List Char
  | [] => []
  | [p] => p
  | p :: ps => p ++ '\n' :: joinWithLF ps

/-- Models lines 283–288: the terminal error message on nonzero exit — the
trimmed stderr, falling back to stdout and then to a fixed message, capped
to the last 25 newline-separated lines. -/
def processFailureMessage (stdout stderr : String) : String :=
  let message := jsTrim (jsOrElse stderr (jsOrElse stdout "Voice clone failed."))
  let parts := splitOnLF message.toList
  ⟨joinWithLF (parts.drop (parts.length - 25))⟩

/-- Models lines 299–303: the versions of the requested voice found by the
registry scan, and their maximum (`Math.max`), or `null` when none exist. -/
def latestCreatedVersion (voices : List LocalVoice) (voiceName : String) : Option Nat :=
  let createdVersions := (voices.filter (fun v => v.name = voiceName)).map
    (fun v => v.version)
  if 0 < createdVersions.length then some (createdVersions.foldl Nat.max 0) else none

/-- Outcome of the awaited `runCommandStreaming` call: either the process
closed with an exit code, accumulated output texts and the captured lines
(delivered to `onLine` in order), or the promise rejected (spawn failure or
another thrown error), which the `catch` block turns into a terminal error
event. -/
inductive RunOutcome where
  | completed (code : Int) (stdout stderr : String) (lines : List String)
  | threw (message : String)

/-- Models the body of the response stream `start` callback (lines
242–332): emit the initial stages, classify every captured line, then emit
exactly one terminal event according to the exit code and the registry
lookup.  The cache-eviction step (lines 293–295) touches only the
filesystem and emits nothing.  The value is the full ordered event list of
the stream. -/
def streamEvents (sourceMode : CloneSourceMode) (voiceName : String)
    (run : RunOutcome) (voicesAfter : List LocalVoice) : List CloneStreamEvent :=
  let st2 := initialStageState sourceMode
  match run with
  | .threw message => (emit st2 (.error message)).events
  | .completed code stdout stderr lines =>
    let st3 := applyLines st2 lines
    if code ≠ 0 then
      (emit st3 (.error (processFailureMessage stdout stderr))).events
    else
      let st4 := setStage st3 .saving_profile
      match latestCreatedVersion voicesAfter voiceName with
      | none =>
          (emit st4 (.error "Clone completed but could not locate saved voice profile.")).events
      | some latestVersion =>
          let st5 := setStage st4 .finalizing
          (emit st5 (.result voiceName latestVersion
            ("voices/" ++ voiceName ++ "/" ++ natToDecimal latestVersion))).events

/-! ### Request validation before the stream
(`src/site/src/routes/api/clone-voice/+server.ts`, lines 170–241) -/

/-- The fields of the incoming `FormData` as the handler reads them.
`sourceFileOk` models `sourceFile instanceof File && sourceFile.size > 0`;
the staged temporary path for an uploaded file is a parameter of
`postPrepare`. -/
structure CloneFormData where
  sourceMode : Option String
  sourceUrl : Option String
  voiceName : Option String
  startArg : Option String
  endArg : Option String
  cacheDownloads : Option String
  sourceFileOk : Bool

/-- Outcome of the validation phase: an immediate JSON client error, the
outer-catch server error, or the spawn of the external process with the
assembled argument list (only this constructor runs a process). -/
inductive PostPrep where
  | clientError (status : Nat) (error : String)
  | serverError (error : String)
  | spawn (command : String) (args : List String) (sourceMode : CloneSourceMode)
      (voiceName : String) (sourceUrl : String) (cacheDownloads : Bool)
deriving DecidableEq, Repr

/-- Models the `POST` handler up to the creation of the response stream
(lines 170–241): read and trim the form fields, validate the voice name,
resolve the repo root (`repoRoot = none` models a failing
`resolveRepoRoot`, which throws into the outer catch), assemble the
argument list, and validate the source mode and its required field.  No
process is spawned on any non-`spawn` outcome. -/
def postPrepare (repoRoot : Option String) (tempSourcePath : String)
    (fd : CloneFormData) : PostPrep :=
  let sourceMode := fd.sourceMode.getD "url"
  let sourceUrl := jsTrim (fd.sourceUrl.getD "")
  let voiceNameRaw := jsTrim (fd.voiceName.getD "")
  let startv := jsTrim (fd.startArg.getD "")
  let endv := jsTrim (fd.endArg.getD "")
  let cacheDownloads : Bool :=
    match fd.cacheDownloads with
    | some s => s ≠ "false"
    | none => true
  if !(isValidVoiceName voiceNameRaw) || voiceNameRaw.toList.contains '-' then
    .clientError 400 "Invalid voice name. Use only letters, numbers, and underscores (no hyphens)."
  else
    let voiceName := jsToLowerCase voiceNameRaw
    match repoRoot with
    | none => .serverError "Could not resolve repo root from current working directory."
    | some root =>
      let outputRoot := root ++ "/voices"
      let args := ["run", "src/pocket_tts_youtube_pipeline.py", "--output-root", outputRoot,
          "--voice", voiceName, "--skip-generate", "--verbose-command-output"]
        ++ (if startv ≠ "" then ["--start", startv] else [])
        ++ (if endv ≠ "" then ["--end", endv] else [])
      if sourceMode = "url" then
        if sourceUrl = "" then .clientError 400 "Source URL is required."
        else .spawn "uv" (args ++ ["--source-url", sourceUrl]) .url voiceName sourceUrl
          cacheDownloads
      else if sourceMode = "file" then
        if !fd.sourceFileOk then .clientError 400 "Local source file is required."
        else .spawn "uv" (args ++ ["--source-file", tempSourcePath]) .file voiceName sourceUrl
          cacheDownloads
      else .clientError 400 "Invalid source mode."


/-! ### Properties of the stream state machine -/

/-- A terminal event closes the stream; stage events do not. -/
def CloneStreamEvent.isTerminal : CloneStreamEvent → Bool
  | .stage _ _ => false
  | .result _ _ _ => true
  | .error _ => true

theorem setStage_currentStage (st : StreamState) (s : CloneStage) :
    (setStage st s).currentStage = some s := by
  rw [setStage]
  split_ifs with h
  · exact h
  · rfl

theorem setStage_of_eq (st : StreamState) (s : CloneStage)
    (h : st.currentStage = some s) : setStage st s = st := by
  rw [setStage, if_pos h]

theorem setStage_events_of_ne (st : StreamState) (s : CloneStage)
    (h : st.currentStage ≠ some s) :
    (setStage st s).events = st.events ++ [.stage s (stageMessage s)] := by
  rw [setStage, if_neg h]
  rfl

theorem setStage_allStage (st : StreamState) (s : CloneStage)
    (h : ∀ e ∈ st.events, e.isTerminal = false) :
    ∀ e ∈ (setStage st s).events, e.isTerminal = false := by
  rw [setStage]
  split_ifs with hc
  · exact h
  · intro e he
    rcases List.mem_append.mp he with he | he
    · exact h e he
    · simp only [List.mem_singleton] at he
      subst he
      rfl

theorem applyLine_allStage (st : StreamState) (line : String)
    (h : ∀ e ∈ st.events, e.isTerminal = false) :
    ∀ e ∈ (applyLine st line).events, e.isTerminal = false := by
  rw [applyLine]
  cases inferCloneStageFromLine line with
  | none => exact h
  | some g => exact setStage_allStage st g h

theorem applyLines_allStage (lines : List String) (st : StreamState)
    (h : ∀ e ∈ st.events, e.isTerminal = false) :
    ∀ e ∈ (applyLines st lines).events, e.isTerminal = false := by
  induction lines generalizing st with
  | nil => exact h
  | cons l ls ih =>
      rw [applyLines, List.foldl_cons]
      exact ih (applyLine st l) (applyLine_allStage st l h)

theorem initialStageState_allStage (sourceMode : CloneSourceMode) :
    ∀ e ∈ (initialStageState sourceMode).events, e.isTerminal = false := by
  refine setStage_allStage _ _ (setStage_allStage _ _ ?_)
  intro e he
  simp at he

/-- C8: a stage equal to the currently tracked one emits nothing, so two
consecutive identical stages emit exactly one stage event. -/
theorem setStage_idempotent (st : StreamState) (s : CloneStage)
    (h : st.currentStage ≠ some s) :
    (setStage st s).events = st.events ++ [CloneStreamEvent.stage s (stageMessage s)] ∧
    setStage (setStage st s) s = setStage st s ∧
    (setStage (setStage st s) s).events =
      st.events ++ [CloneStreamEvent.stage s (stageMessage s)] := by
  have h1 := setStage_events_of_ne st s h
  have h2 : setStage (setStage st s) s = setStage st s :=
    setStage_of_eq _ s (setStage_currentStage st s)
  exact ⟨h1, h2, by rw [h2, h1]⟩

theorem setStage_idempotent_witness :
    (⟨some CloneStage.starting, []⟩ : StreamState).currentStage ≠
        some CloneStage.downloading_media ∧
    (setStage ⟨some CloneStage.starting, []⟩ CloneStage.downloading_media).events =
      [CloneStreamEvent.stage CloneStage.downloading_media
        (stageMessage CloneStage.downloading_media)] ∧
    setStage (setStage ⟨some CloneStage.starting, []⟩ CloneStage.downloading_media)
        CloneStage.downloading_media =
      setStage ⟨some CloneStage.starting, []⟩ CloneStage.downloading_media := by
  have h : (⟨some CloneStage.starting, []⟩ : StreamState).currentStage ≠
      some CloneStage.downloading_media := by decide
  have := setStage_idempotent ⟨some CloneStage.starting, []⟩ CloneStage.downloading_media h
  exact ⟨h, by simpa using this.1, this.2.1⟩

/-- C1: every path of the stream body emits a non-empty event list whose
last event is the unique terminal (result or error) and whose preceding
events are all stage events. -/
theorem streamEvents_single_terminal (sourceMode : CloneSourceMode) (voiceName : String)
    (run : RunOutcome) (voicesAfter : List LocalVoice) :
    ∃ stagePrefix terminal,
      streamEvents sourceMode voiceName run voicesAfter = stagePrefix ++ [terminal] ∧
      terminal.isTerminal = true ∧
      ∀ e ∈ stagePrefix, e.isTerminal = false := by
  have hInit := initialStageState_allStage sourceMode
  cases run with
  | threw message =>
      exact ⟨(initialStageState sourceMode).events, .error message, rfl, rfl, hInit⟩
  | completed code stdout stderr lines =>
      have hSt3 := applyLines_allStage lines (initialStageState sourceMode) hInit
      simp only [streamEvents]
      by_cases hcode : code ≠ 0
      · rw [if_pos hcode]
        exact ⟨_, .error (processFailureMessage stdout stderr), rfl, rfl, hSt3⟩
      · rw [if_neg hcode]
        have hSt4 := setStage_allStage _ CloneStage.saving_profile hSt3
        cases hlv : latestCreatedVersion voicesAfter voiceName with
        | none =>
            exact ⟨_, .error "Clone completed but could not locate saved voice profile.",
              rfl, rfl, hSt4⟩
        | some latestVersion =>
            have hSt5 := setStage_allStage _ CloneStage.finalizing hSt4
            exact ⟨_, .result voiceName latestVersion
              ("voices/" ++ voiceName ++ "/" ++ natToDecimal latestVersion), rfl, rfl, hSt5⟩


theorem streamEvents_success (sourceMode : CloneSourceMode) (voiceName : String)
    (stdout stderr : String) (lines : List String) (voicesAfter : List LocalVoice)
    (v : Nat) (hv : latestCreatedVersion voicesAfter voiceName = some v) :
    streamEvents sourceMode voiceName (.completed 0 stdout stderr lines) voicesAfter =
      (setStage (applyLines (initialStageState sourceMode) lines)
          CloneStage.saving_profile).events ++
        [CloneStreamEvent.stage .finalizing (stageMessage .finalizing),
         CloneStreamEvent.result voiceName v
           ("voices/" ++ voiceName ++ "/" ++ natToDecimal v)] := by
  have hne : (setStage (applyLines (initialStageState sourceMode) lines)
      CloneStage.saving_profile).currentStage ≠ some CloneStage.finalizing := by
    rw [setStage_currentStage]
    simp
  simp only [streamEvents, if_neg (by simp : ¬(0 : Int) ≠ 0), hv]
  show (setStage (setStage (applyLines (initialStageState sourceMode) lines)
      CloneStage.saving_profile) CloneStage.finalizing).events ++ [_] = _
  rw [setStage_events_of_ne _ _ hne]
  simp

/-- C10: when the process exits 0 and the registry resolves a version, the
event immediately before the result is always a `finalizing` stage event,
because `saving_profile` and then `finalizing` are applied unconditionally
after the exit; when the classifier had already reached `finalizing`, a
`saving_profile` stage event is re-emitted and `finalizing` is emitted a
second time right before the result. -/
theorem streamEvents_finalizing_before_result (sourceMode : CloneSourceMode)
    (voiceName : String) (stdout stderr : String) (lines : List String)
    (voicesAfter : List LocalVoice) (v : Nat)
    (hv : latestCreatedVersion voicesAfter voiceName = some v) :
    (∃ p, streamEvents sourceMode voiceName (.completed 0 stdout stderr lines) voicesAfter =
        p ++ [CloneStreamEvent.stage .finalizing (stageMessage .finalizing),
          CloneStreamEvent.result voiceName v
            ("voices/" ++ voiceName ++ "/" ++ natToDecimal v)]) ∧
    ((applyLines (initialStageState sourceMode) lines).currentStage =
        some CloneStage.finalizing →
      streamEvents sourceMode voiceName (.completed 0 stdout stderr lines) voicesAfter =
        (applyLines (initialStageState sourceMode) lines).events ++
          [CloneStreamEvent.stage .saving_profile (stageMessage .saving_profile),
           CloneStreamEvent.stage .finalizing (stageMessage .finalizing),
           CloneStreamEvent.result voiceName v
             ("voices/" ++ voiceName ++ "/" ++ natToDecimal v)]) := by
  constructor
  · exact ⟨_, streamEvents_success sourceMode voiceName stdout stderr lines voicesAfter v hv⟩
  · intro hfin
    have hne : (applyLines (initialStageState sourceMode) lines).currentStage ≠
        some CloneStage.saving_profile := by
      rw [hfin]
      simp
    rw [streamEvents_success sourceMode voiceName stdout stderr lines voicesAfter v hv,
      setStage_events_of_ne _ _ hne]
    simp

theorem streamEvents_finalizing_before_result_witness :
    latestCreatedVersion [⟨"stefan", 1, "stefan/1/voice.safetensors"⟩] "stefan" = some 1 ∧
    ((∃ p, streamEvents .url "stefan" (.completed 0 "" "" ["All jobs completed"])
        [⟨"stefan", 1, "stefan/1/voice.safetensors"⟩] =
        p ++ [CloneStreamEvent.stage .finalizing (stageMessage .finalizing),
          CloneStreamEvent.result "stefan" 1 ("voices/" ++ "stefan" ++ "/" ++ natToDecimal 1)]) ∧
      ((applyLines (initialStageState .url) ["All jobs completed"]).currentStage =
          some CloneStage.finalizing →
        streamEvents .url "stefan" (.completed 0 "" "" ["All jobs completed"])
          [⟨"stefan", 1, "stefan/1/voice.safetensors"⟩] =
          (applyLines (initialStageState .url) ["All jobs completed"]).events ++
            [CloneStreamEvent.stage .saving_profile (stageMessage .saving_profile),
             CloneStreamEvent.stage .finalizing (stageMessage .finalizing),
             CloneStreamEvent.result "stefan" 1
               ("voices/" ++ "stefan" ++ "/" ++ natToDecimal 1)])) :=
  ⟨by decide,
    streamEvents_finalizing_before_result .url "stefan" "" "" ["All jobs completed"]
      [⟨"stefan", 1, "stefan/1/voice.safetensors"⟩] 1 (by decide)⟩

/-- C6: on a zero exit with no resolvable registry version the terminal
event is the fixed ResultNotFound error message (independent of the
process output), it is the last event, and no result event is emitted. -/
theorem streamEvents_result_not_found (sourceMode : CloneSourceMode) (voiceName : String)
    (stdout stderr : String) (lines : List String) (voicesAfter : List LocalVoice)
    (hv : latestCreatedVersion voicesAfter voiceName = none) :
    ∃ p, streamEvents sourceMode voiceName (.completed 0 stdout stderr lines) voicesAfter =
        p ++ [CloneStreamEvent.error
          "Clone completed but could not locate saved voice profile."] ∧
      ∀ e ∈ p, e.isTerminal = false := by
  have hSt4 := setStage_allStage (applyLines (initialStageState sourceMode) lines)
    CloneStage.saving_profile
    (applyLines_allStage lines (initialStageState sourceMode)
      (initialStageState_allStage sourceMode))
  refine ⟨(setStage (applyLines (initialStageState sourceMode) lines)
    CloneStage.saving_profile).events, ?_, hSt4⟩
  simp only [streamEvents, if_neg (by simp : ¬(0 : Int) ≠ 0), hv]
  rfl

theorem streamEvents_result_not_found_witness :
    latestCreatedVersion ([] : List LocalVoice) "stefan" = none ∧
    (∃ p, streamEvents .url "stefan" (.completed 0 "ok" "" []) [] =
        p ++ [CloneStreamEvent.error
          "Clone completed but could not locate saved voice profile."] ∧
      ∀ e ∈ p, e.isTerminal = false) :=
  ⟨by decide, streamEvents_result_not_found .url "stefan" "ok" "" [] [] (by decide)⟩

/-- C4 (amended): on nonzero exit the terminal error carries the last 25
lines of the trimmed stderr text when non-empty, else of the stdout text,
else a fixed fallback — not of the concatenation of both — and it is the
last event, with only stage events before it. -/
theorem streamEvents_nonzero_exit (sourceMode : CloneSourceMode) (voiceName : String)
    (code : Int) (stdout stderr : String) (lines : List String)
    (voicesAfter : List LocalVoice) (h : code ≠ 0) :
    streamEvents sourceMode voiceName (.completed code stdout stderr lines) voicesAfter =
      (applyLines (initialStageState sourceMode) lines).events ++
        [CloneStreamEvent.error (processFailureMessage stdout stderr)] ∧
    ∀ e ∈ (applyLines (initialStageState sourceMode) lines).events,
      e.isTerminal = false := by
  refine ⟨?_, applyLines_allStage lines (initialStageState sourceMode)
    (initialStageState_allStage sourceMode)⟩
  simp only [streamEvents, if_pos h]
  rfl

theorem streamEvents_nonzero_exit_witness :
    ((1 : Int) ≠ 0) ∧
    (streamEvents .url "stefan" (.completed 1 "" "model download failed" []) [] =
      (applyLines (initialStageState .url) []).events ++
        [CloneStreamEvent.error (processFailureMessage "" "model download failed")] ∧
    ∀ e ∈ (applyLines (initialStageState .url) []).events, e.isTerminal = false) :=
  ⟨by decide, streamEvents_nonzero_exit .url "stefan" 1 "" "model download failed" [] []
    (by decide)⟩

/-- Stated from the claim wording, for comparison with the code: the last
25 lines of the combined stderr and stdout text of the process, after
trimming. -/
def combinedOutputTail (first second : String) : String :=
  let message := jsTrim (first ++ "\n" ++ second)
  let parts := splitOnLF message.toList
  ⟨joinWithLF (parts.drop (parts.length - 25))⟩

/-- C4 counterexample: with both streams non-empty the emitted error is the
stderr text alone, not the last 25 lines of the combined stderr and stdout
text (in either concatenation order). -/
theorem streamEvents_nonzero_exit_counterexample :
    streamEvents .url "stefan" (.completed 1 "stdout context" "stderr failure" []) [] =
      [CloneStreamEvent.stage .starting (stageMessage .starting),
       CloneStreamEvent.stage .downloading_media (stageMessage .downloading_media),
       CloneStreamEvent.error "stderr failure"] ∧
    ("stderr failure" : String) ≠ combinedOutputTail "stderr failure" "stdout context" ∧
    ("stderr failure" : String) ≠ combinedOutputTail "stdout context" "stderr failure" := by
  decide


theorem not_result_mem_of_allStage {p : List CloneStreamEvent}
    (hp : ∀ e ∈ p, e.isTerminal = false) (n : String) (v : Nat) (dir : String) :
    CloneStreamEvent.result n v dir ∉ p := by
  intro hmem
  have := hp _ hmem
  simp [CloneStreamEvent.isTerminal] at this

theorem streamEvents_result_name (sourceMode : CloneSourceMode) (voiceName : String)
    (run : RunOutcome) (voicesAfter : List LocalVoice) (n : String) (v : Nat)
    (dir : String)
    (h : CloneStreamEvent.result n v dir ∈ streamEvents sourceMode voiceName run voicesAfter) :
    n = voiceName := by
  have hInit := initialStageState_allStage sourceMode
  cases run with
  | threw message =>
      replace h : CloneStreamEvent.result n v dir ∈
          (initialStageState sourceMode).events ++ [CloneStreamEvent.error message] := h
      rcases List.mem_append.mp h with h | h
      · exact absurd h (not_result_mem_of_allStage hInit n v dir)
      · simp at h
  | completed code stdout stderr lines =>
      have hSt3 := applyLines_allStage lines (initialStageState sourceMode) hInit
      simp only [streamEvents] at h
      by_cases hcode : code ≠ 0
      · rw [if_pos hcode] at h
        replace h : CloneStreamEvent.result n v dir ∈
            (applyLines (initialStageState sourceMode) lines).events ++
              [CloneStreamEvent.error (processFailureMessage stdout stderr)] := h
        rcases List.mem_append.mp h with h | h
        · exact absurd h (not_result_mem_of_allStage hSt3 n v dir)
        · simp at h
      · rw [if_neg hcode] at h
        have hSt4 := setStage_allStage _ CloneStage.saving_profile hSt3
        rcases hlv : latestCreatedVersion voicesAfter voiceName with _ | lv
        · rw [hlv] at h
          replace h : CloneStreamEvent.result n v dir ∈
              (setStage (applyLines (initialStageState sourceMode) lines)
                CloneStage.saving_profile).events ++
                [CloneStreamEvent.error
                  "Clone completed but could not locate saved voice profile."] := h
          rcases List.mem_append.mp h with h | h
          · exact absurd h (not_result_mem_of_allStage hSt4 n v dir)
          · simp at h
        · rw [hlv] at h
          have hSt5 := setStage_allStage _ CloneStage.finalizing hSt4
          replace h : CloneStreamEvent.result n v dir ∈
              (setStage (setStage (applyLines (initialStageState sourceMode) lines)
                CloneStage.saving_profile) CloneStage.finalizing).events ++
                [CloneStreamEvent.result voiceName lv
                  ("voices/" ++ voiceName ++ "/" ++ natToDecimal lv)] := h
          rcases List.mem_append.mp h with h | h
          · exact absurd h (not_result_mem_of_allStage hSt5 n v dir)
          · simp only [List.mem_singleton, CloneStreamEvent.result.injEq] at h
            exact h.1

/-- C9: a request whose trimmed name matches the pattern is accepted even
with uppercase letters; the name actually used — in the `--voice` argument
and in any emitted result event — is the lowercased trimmed submitted
name, which can differ from the submitted one. -/
theorem clone_uses_lowercased_name (root tempPath : String) (fd : CloneFormData)
    (cmd : String) (args : List String) (mode : CloneSourceMode)
    (name url : String) (cache : Bool)
    (h : postPrepare (some root) tempPath fd =
      PostPrep.spawn cmd args mode name url cache) :
    name = jsToLowerCase (jsTrim (fd.voiceName.getD "")) ∧
    isValidVoiceName (jsTrim (fd.voiceName.getD "")) = true ∧
    (∃ l1 l2, args = l1 ++ ["--voice", name] ++ l2) ∧
    (∀ run voicesAfter n2 v dir,
      CloneStreamEvent.result n2 v dir ∈ streamEvents mode name run voicesAfter →
      n2 = name) := by
  simp only [postPrepare] at h
  by_cases h1 : (!(isValidVoiceName (jsTrim (fd.voiceName.getD ""))) ||
      (jsTrim (fd.voiceName.getD "")).toList.contains '-') = true
  · rw [if_pos h1] at h
    exact absurd h (by simp)
  · rw [if_neg h1] at h
    have hvalid : isValidVoiceName (jsTrim (fd.voiceName.getD "")) = true := by
      simp only [Bool.or_eq_true, not_or, Bool.not_eq_true, Bool.not_eq_true'] at h1
      cases hbv : isValidVoiceName (jsTrim (fd.voiceName.getD "")) with
      | true => rfl
      | false => exact absurd hbv h1.1
    by_cases h2 : fd.sourceMode.getD "url" = "url"
    · rw [if_pos h2] at h
      by_cases h3 : jsTrim (fd.sourceUrl.getD "") = ""
      · rw [if_pos h3] at h
        exact absurd h (by simp)
      · rw [if_neg h3] at h
        simp only [PostPrep.spawn.injEq] at h
        obtain ⟨hc, hargs, hm, hn, hu, hca⟩ := h
        refine ⟨hn.symm, hvalid, ?_, ?_⟩
        · refine ⟨["run", "src/pocket_tts_youtube_pipeline.py", "--output-root",
            root ++ "/voices"],
            ["--skip-generate", "--verbose-command-output"] ++
              (if jsTrim (fd.startArg.getD "") ≠ "" then
                ["--start", jsTrim (fd.startArg.getD "")] else []) ++
              (if jsTrim (fd.endArg.getD "") ≠ "" then
                ["--end", jsTrim (fd.endArg.getD "")] else []) ++
              ["--source-url", jsTrim (fd.sourceUrl.getD "")], ?_⟩
          rw [← hargs, ← hn]
          simp
        · intro run voicesAfter n2 v dir hmem
          exact streamEvents_result_name mode name run voicesAfter n2 v dir hmem
    · rw [if_neg h2] at h
      by_cases h4 : fd.sourceMode.getD "url" = "file"
      · rw [if_pos h4] at h
        by_cases h5 : (!fd.sourceFileOk) = true
        · rw [if_pos h5] at h
          exact absurd h (by simp)
        · rw [if_neg h5] at h
          simp only [PostPrep.spawn.injEq] at h
          obtain ⟨hc, hargs, hm, hn, hu, hca⟩ := h
          refine ⟨hn.symm, hvalid, ?_, ?_⟩
          · refine ⟨["run", "src/pocket_tts_youtube_pipeline.py", "--output-root",
              root ++ "/voices"],
              ["--skip-generate", "--verbose-command-output"] ++
                (if jsTrim (fd.startArg.getD "") ≠ "" then
                  ["--start", jsTrim (fd.startArg.getD "")] else []) ++
                (if jsTrim (fd.endArg.getD "") ≠ "" then
                  ["--end", jsTrim (fd.endArg.getD "")] else []) ++
                ["--source-file", tempPath], ?_⟩
            rw [← hargs, ← hn]
            simp
          · intro run voicesAfter n2 v dir hmem
            exact streamEvents_result_name mode name run voicesAfter n2 v dir hmem
      · rw [if_neg h4] at h
        exact absurd h (by simp)

theorem clone_uses_lowercased_name_witness :
    postPrepare (some "/repo") "/tmp/up.bin"
      ⟨some "url", some "http://v", some " Stefan ", none, none, none, false⟩ =
      PostPrep.spawn "uv"
        ["run", "src/pocket_tts_youtube_pipeline.py", "--output-root", "/repo/voices",
         "--voice", "stefan", "--skip-generate", "--verbose-command-output",
         "--source-url", "http://v"] .url "stefan" "http://v" true ∧
    jsTrim ((some " Stefan " : Option String).getD "") = "Stefan" ∧
    ("stefan" : String) ≠ "Stefan" ∧
    ("stefan" : String) = jsToLowerCase (jsTrim ((some " Stefan " : Option String).getD "")) ∧
    isValidVoiceName (jsTrim ((some " Stefan " : Option String).getD "")) = true ∧
    (∃ l1 l2,
      ["run", "src/pocket_tts_youtube_pipeline.py", "--output-root", "/repo/voices",
       "--voice", "stefan", "--skip-generate", "--verbose-command-output",
       "--source-url", "http://v"] = l1 ++ ["--voice", "stefan"] ++ l2) := by
  have hp : postPrepare (some "/repo") "/tmp/up.bin"
      ⟨some "url", some "http://v", some " Stefan ", none, none, none, false⟩ =
      PostPrep.spawn "uv"
        ["run", "src/pocket_tts_youtube_pipeline.py", "--output-root", "/repo/voices",
         "--voice", "stefan", "--skip-generate", "--verbose-command-output",
         "--source-url", "http://v"] .url "stefan" "http://v" true := by decide
  have hmain := clone_uses_lowercased_name "/repo" "/tmp/up.bin"
    ⟨some "url", some "http://v", some " Stefan ", none, none, none, false⟩
    "uv" _ .url "stefan" "http://v" true hp
  exact ⟨hp, by decide, by decide, hmain.1, hmain.2.1, hmain.2.2.1⟩

/-- C5: a request with an invalid voice name, an empty required source
field, or an unknown source mode is answered with a 400 client error and
never reaches the spawn outcome. -/
theorem invalid_request_rejected (root tempPath : String) (fd : CloneFormData)
    (h : isValidVoiceName (jsTrim (fd.voiceName.getD "")) = false ∨
      (fd.sourceMode.getD "url" = "url" ∧ jsTrim (fd.sourceUrl.getD "") = "") ∨
      (fd.sourceMode.getD "url" = "file" ∧ fd.sourceFileOk = false) ∨
      (fd.sourceMode.getD "url" ≠ "url" ∧ fd.sourceMode.getD "url" ≠ "file")) :
    (∃ msg, postPrepare (some root) tempPath fd = PostPrep.clientError 400 msg) ∧
    ∀ cmd args mode name url cache,
      postPrepare (some root) tempPath fd ≠
        PostPrep.spawn cmd args mode name url cache := by
  have hmain : ∃ msg, postPrepare (some root) tempPath fd = PostPrep.clientError 400 msg := by
    simp only [postPrepare]
    by_cases h1 : (!(isValidVoiceName (jsTrim (fd.voiceName.getD ""))) ||
        (jsTrim (fd.voiceName.getD "")).toList.contains '-') = true
    · rw [if_pos h1]
      exact ⟨_, rfl⟩
    · rw [if_neg h1]
      have hvalid : isValidVoiceName (jsTrim (fd.voiceName.getD "")) = true := by
        simp only [Bool.or_eq_true, not_or, Bool.not_eq_true, Bool.not_eq_true'] at h1
        cases hbv : isValidVoiceName (jsTrim (fd.voiceName.getD "")) with
        | true => rfl
        | false => exact absurd hbv h1.1
      by_cases h2 : fd.sourceMode.getD "url" = "url"
      · rw [if_pos h2]
        have hurl : jsTrim (fd.sourceUrl.getD "") = "" := by
          rcases h with h | ⟨hmode, hurl⟩ | ⟨hmode, _⟩ | ⟨hmU, hmF⟩
          · rw [hvalid] at h
            exact absurd h (by simp)
          · exact hurl
          · rw [h2] at hmode
            exact absurd hmode (by decide)
          · exact absurd h2 hmU
        rw [if_pos hurl]
        exact ⟨_, rfl⟩
      · rw [if_neg h2]
        by_cases h4 : fd.sourceMode.getD "url" = "file"
        · rw [if_pos h4]
          have hfile : fd.sourceFileOk = false := by
            rcases h with h | ⟨hmode, _⟩ | ⟨hmode, hfile⟩ | ⟨hmU, hmF⟩
            · rw [hvalid] at h
              exact absurd h (by simp)
            · rw [h4] at hmode
              exact absurd hmode (by decide)
            · exact hfile
            · exact absurd h4 hmF
          rw [if_pos (by rw [hfile]; rfl)]
          exact ⟨_, rfl⟩
        · rw [if_neg h4]
          exact ⟨_, rfl⟩
  refine ⟨hmain, ?_⟩
  intro cmd args mode name url cache hcontra
  obtain ⟨msg, hmsg⟩ := hmain
  rw [hmsg] at hcontra
  exact absurd hcontra (by simp)

theorem invalid_request_rejected_witness :
    (isValidVoiceName (jsTrim ((some "bad-name" : Option String).getD "")) = false ∨
      ((some "url" : Option String).getD "url" = "url" ∧
        jsTrim ((some "http://v" : Option String).getD "") = "") ∨
      ((some "url" : Option String).getD "url" = "file" ∧ False = true) ∨
      ((some "url" : Option String).getD "url" ≠ "url" ∧
        (some "url" : Option String).getD "url" ≠ "file")) ∧
    ((∃ msg, postPrepare (some "/repo") "/tmp/up.bin"
        ⟨some "url", some "http://v", some "bad-name", none, none, none, true⟩ =
        PostPrep.clientError 400 msg) ∧
      ∀ cmd args mode name url cache,
        postPrepare (some "/repo") "/tmp/up.bin"
          ⟨some "url", some "http://v", some "bad-name", none, none, none, true⟩ ≠
          PostPrep.spawn cmd args mode name url cache) := by
  have hcond : isValidVoiceName
      (jsTrim ((some "bad-name" : Option String).getD "")) = false := by decide
  exact ⟨Or.inl hcond,
    invalid_request_rejected "/repo" "/tmp/up.bin"
      ⟨some "url", some "http://v", some "bad-name", none, none, none, true⟩
      (Or.inl hcond)⟩


/-- C2: for every stream and every way of splitting it into chunks, the
line buffer delivers exactly the same sequence of non-empty trimmed lines
as delivering the whole stream in a single chunk. -/
theorem streamLines_chunking_invariant (chunks : List (List Char)) :
    streamLines chunks = streamLines [chunks.flatten] := by
  rw [streamLines_eq_single, streamLines_eq_single]
  simp

theorem leadsWith_iff (needle : List Char) : ∀ hay,
    leadsWith hay needle = true ↔ ∃ rest, hay = needle ++ rest := by
  induction needle with
  | nil =>
      intro hay
      simp [leadsWith]
  | cons d ds ih =>
      intro hay
      cases hay with
      | nil => simp [leadsWith]
      | cons c cs => simp [leadsWith, ih cs, List.cons_append, List.cons.injEq, exists_and_left]

theorem jsStartsWith_iff (s p : String) :
    jsStartsWith s p = true ↔ ∃ r : String, s = p ++ r := by
  rw [jsStartsWith, leadsWith_iff]
  constructor
  · rintro ⟨rest, hrest⟩
    refine ⟨⟨rest⟩, ?_⟩
    apply String.ext
    simpa [String.data_append] using hrest
  · rintro ⟨r, rfl⟩
    exact ⟨r.toList, by simp [String.data_append]⟩

theorem replaceLeadingSource_stem (fp : String) :
    replaceLeadingSource ("source_" ++ fp) = "youtube_" ++ fp := by
  rw [replaceLeadingSource, if_pos (by rw [jsStartsWith_iff]; exact ⟨fp, rfl⟩)]
  congr 1

/-- Stated from the claim wording: the entry name equals the fingerprint
stem under the current `source_` or the legacy `youtube_` naming, with any
extension (anything after a dot) or with no extension at all. -/
def matchesFingerprintNaming (fp name : String) : Prop :=
  name = "source_" ++ fp ∨ name = "youtube_" ++ fp ∨
  (∃ ext, name = "source_" ++ fp ++ "." ++ ext) ∨
  (∃ ext, name = "youtube_" ++ fp ++ "." ++ ext)

theorem evictionTarget_iff (fp name : String) :
    (jsStartsWith name (("source_" ++ fp) ++ ".") ||
      jsStartsWith name (replaceLeadingSource ("source_" ++ fp) ++ ".") ||
      name = ("source_" ++ fp) || name = replaceLeadingSource ("source_" ++ fp)) = true ↔
    matchesFingerprintNaming fp name := by
  rw [replaceLeadingSource_stem]
  simp only [Bool.or_eq_true, decide_eq_true_eq, jsStartsWith_iff, matchesFingerprintNaming,
    String.append_assoc]
  tauto

theorem foldl_erase_mem (unlinkFails : String → Bool) (targets : List String) :
    ∀ dir : List String, dir.Nodup → ∀ x : String,
    (x ∈ targets.foldl (fun d n => if unlinkFails n then d else d.erase n) dir ↔
      x ∈ dir ∧ ¬(x ∈ targets ∧ unlinkFails x = false)) := by
  induction targets with
  | nil =>
      intro dir hd x
      simp
  | cons t ts ih =>
      intro dir hd x
      rw [List.foldl_cons]
      by_cases hft : unlinkFails t = true
      · rw [if_pos hft, ih dir hd x]
        by_cases hx : x = t
        · subst hx
          simp [hft]
        · simp [List.mem_cons, hx]
      · rw [if_neg hft, ih (dir.erase t) (hd.erase t) x,
          List.Nodup.mem_erase_iff hd]
        have hft' : unlinkFails t = false := by
          cases hv : unlinkFails t with
          | true => exact absurd hv hft
          | false => rfl
        by_cases hx : x = t
        · subst hx
          simp [hft']
        · simp only [List.mem_cons, hx, false_or, ne_eq]
          tauto

/-- C7: eviction removes exactly the directory entries whose name matches
the fingerprint stem naming (current or legacy, with or without an
extension) and whose unlink succeeds; every entry of a different stem is
untouched, and a failed unlink only keeps its own file while the other
deletions still happen (failures are swallowed). -/
theorem clearDownloadCache_exact (sha256hex : String → String) (sourceUrl : String)
    (entries : List String) (unlinkFails : String → Bool) (hnd : entries.Nodup)
    (name : String) :
    name ∈ clearDownloadCacheForUrl sha256hex sourceUrl entries unlinkFails ↔
      name ∈ entries ∧
        ¬(matchesFingerprintNaming
            (String.mk ((sha256hex (jsTrim sourceUrl)).toList.take 20)) name ∧
          unlinkFails name = false) := by
  rw [clearDownloadCacheForUrl, foldl_erase_mem unlinkFails _ entries hnd name]
  have htarget : name ∈ cacheEvictionTargets (makeCacheStem sha256hex sourceUrl)
      (replaceLeadingSource (makeCacheStem sha256hex sourceUrl)) entries ↔
      name ∈ entries ∧
        matchesFingerprintNaming
          (String.mk ((sha256hex (jsTrim sourceUrl)).toList.take 20)) name := by
    rw [cacheEvictionTargets, List.mem_filter, ← evictionTarget_iff]
    rfl
  rw [htarget]
  tauto

theorem clearDownloadCache_exact_witness :
    (["source_abcdef0123456789abcd.mp3", "youtube_abcdef0123456789abcd.mp3",
      "source_ffff.mp3", "other.txt"] : List String).Nodup ∧
    (("source_ffff.mp3" : String) ∈
        clearDownloadCacheForUrl (fun _ => "abcdef0123456789abcdef99") "http://v"
          ["source_abcdef0123456789abcd.mp3", "youtube_abcdef0123456789abcd.mp3",
           "source_ffff.mp3", "other.txt"] (fun _ => false) ↔
      ("source_ffff.mp3" : String) ∈
          (["source_abcdef0123456789abcd.mp3", "youtube_abcdef0123456789abcd.mp3",
            "source_ffff.mp3", "other.txt"] : List String) ∧
        ¬(matchesFingerprintNaming
            (String.mk ((("abcdef0123456789abcdef99" : String)).toList.take 20))
            "source_ffff.mp3" ∧
          (false : Bool) = false)) := by
  constructor
  · decide
  · exact clearDownloadCache_exact (fun _ => "abcdef0123456789abcdef99") "http://v"
      ["source_abcdef0123456789abcd.mp3", "youtube_abcdef0123456789abcd.mp3",
       "source_ffff.mp3", "other.txt"] (fun _ => false) (by decide) "source_ffff.mp3"


/-! ### Order properties of the registry comparators -/

theorem charListLt_irrefl (l : List Char) : charListLt l l = false := by
  induction l with
  | nil => rfl
  | cons c cs ih => simp [charListLt, ih]

theorem charListLt_trans : ∀ {a b c : List Char}, charListLt a b = true →
    charListLt b c = true → charListLt a c = true := by
  intro a
  induction a with
  | nil =>
      intro b c hab hbc
      cases b with
      | nil => simp [charListLt] at hab
      | cons bx bs =>
          cases c with
          | nil => simp [charListLt] at hbc
          | cons cx cs => simp [charListLt]
  | cons ax as ih =>
      intro b c hab hbc
      cases b with
      | nil => simp [charListLt] at hab
      | cons bx bs =>
          cases c with
          | nil => simp [charListLt] at hbc
          | cons cx cs =>
              simp only [charListLt, Bool.or_eq_true, Bool.and_eq_true,
                decide_eq_true_eq] at hab hbc ⊢
              rcases hab with hab | ⟨hab1, hab2⟩
              · rcases hbc with hbc | ⟨hbc1, hbc2⟩
                · exact Or.inl (lt_trans hab hbc)
                · exact Or.inl (hbc1 ▸ hab)
              · rcases hbc with hbc | ⟨hbc1, hbc2⟩
                · exact Or.inl (hab1 ▸ hbc)
                · exact Or.inr ⟨hab1.trans hbc1, ih hab2 hbc2⟩

theorem charListLt_eq_of_not : ∀ a b : List Char, charListLt a b = false →
    charListLt b a = false → a = b := by
  intro a
  induction a with
  | nil =>
      intro b h1 h2
      cases b with
      | nil => rfl
      | cons bx bs => simp [charListLt] at h1
  | cons ax as ih =>
      intro b h1 h2
      cases b with
      | nil => simp [charListLt] at h2
      | cons bx bs =>
          simp only [charListLt, Bool.or_eq_false_iff, Bool.and_eq_false_iff,
            decide_eq_false_iff_not] at h1 h2
          have hax : ax = bx := le_antisymm (not_lt.mp h2.1) (not_lt.mp h1.1)
          subst hax
          rcases h1.2 with h1' | h1'
          · exact absurd rfl h1'
          · rcases h2.2 with h2' | h2'
            · exact absurd rfl h2'
            · rw [ih bs h1' h2']

theorem localeCompare_names (a b : String) :
    localeCompare a b ≤ 0 ↔
      (charListLt a.data b.data = true ∨ a = b) := by
  rw [localeCompare]
  by_cases h1 : charListLt a.data b.data = true
  · rw [if_pos h1]
    constructor
    · intro _
      exact Or.inl h1
    · intro _
      norm_num
  · rw [if_neg h1]
    by_cases h2 : charListLt b.data a.data = true
    · rw [if_pos h2]
      constructor
      · intro h
        exact absurd h (by norm_num)
      · intro h
        rcases h with h | h
        · exact absurd h h1
        · subst h
          rw [charListLt_irrefl] at h2
          exact absurd h2 (by simp)
    · rw [if_neg h2]
      have heq : a = b := by
        apply String.ext
        exact charListLt_eq_of_not _ _ (Bool.not_eq_true _ ▸ h1)
          (Bool.not_eq_true _ ▸ h2)
      simp [heq]

theorem compareVoices_le_iff (a b : LocalVoice) :
    compareVoices a b ≤ 0 ↔
      (charListLt a.name.data b.name.data = true ∨
        (a.name = b.name ∧ b.version ≤ a.version)) := by
  rw [compareVoices]
  by_cases h0 : localeCompare a.name b.name = 0
  · rw [if_neg (by simpa using h0)]
    have hcases := (localeCompare_names a.name b.name).mp (le_of_eq h0)
    have hlt : charListLt a.name.data b.name.data = false := by
      rw [localeCompare] at h0
      by_cases hc : charListLt a.name.data b.name.data = true
      · rw [if_pos hc] at h0
        exact absurd h0 (by norm_num)
      · exact Bool.not_eq_true _ ▸ hc
    have hname : a.name = b.name := by
      rcases hcases with h | h
      · rw [h] at hlt
        exact absurd hlt (by simp)
      · exact h
    constructor
    · intro h
      refine Or.inr ⟨hname, ?_⟩
      omega
    · intro h
      rcases h with h | ⟨_, h⟩
      · rw [h] at hlt
        exact absurd hlt (by simp)
      · omega
  · rw [if_pos (by simpa using h0)]
    constructor
    · intro h
      rcases (localeCompare_names a.name b.name).mp h with h' | h'
      · exact Or.inl h'
      · exfalso
        apply h0
        rw [localeCompare, h']
        simp [charListLt_irrefl]
    · intro h
      apply (localeCompare_names a.name b.name).mpr
      rcases h with h | ⟨h, _⟩
      · exact Or.inl h
      · exact Or.inr h

theorem compareVoices_le_total (a b : LocalVoice) :
    compareVoices a b ≤ 0 ∨ compareVoices b a ≤ 0 := by
  by_cases h1 : charListLt a.name.data b.name.data = true
  · exact Or.inl ((compareVoices_le_iff a b).mpr (Or.inl h1))
  · by_cases h2 : charListLt b.name.data a.name.data = true
    · exact Or.inr ((compareVoices_le_iff b a).mpr (Or.inl h2))
    · have heq : a.name = b.name := String.ext (charListLt_eq_of_not _ _
        (Bool.not_eq_true _ ▸ h1) (Bool.not_eq_true _ ▸ h2))
      by_cases hv : b.version ≤ a.version
      · exact Or.inl ((compareVoices_le_iff a b).mpr (Or.inr ⟨heq, hv⟩))
      · exact Or.inr ((compareVoices_le_iff b a).mpr (Or.inr ⟨heq.symm, by omega⟩))

theorem compareVoices_le_trans {a b c : LocalVoice} (hab : compareVoices a b ≤ 0)
    (hbc : compareVoices b c ≤ 0) : compareVoices a c ≤ 0 := by
  rw [compareVoices_le_iff] at hab hbc ⊢
  rcases hab with hab | ⟨hab1, hab2⟩
  · rcases hbc with hbc | ⟨hbc1, hbc2⟩
    · exact Or.inl (charListLt_trans hab hbc)
    · exact Or.inl (hbc1 ▸ hab)
  · rcases hbc with hbc | ⟨hbc1, hbc2⟩
    · exact Or.inl (hab1 ▸ hbc)
    · exact Or.inr ⟨hab1.trans hbc1, le_trans hbc2 hab2⟩


/-! ### Decimal representation round trips -/

/-- The numeric value of a digit list, as computed by `jsNumberNat`. -/
def digitsVal (l : List Char) : Nat :=
  l.foldl (fun acc c => acc * 10 + (c.toNat - '0'.toNat)) 0

theorem jsNumberNat_eq_digitsVal (s : String) : jsNumberNat s = digitsVal s.data := rfl

theorem digitsVal_append_digit (ds : List Char) (c : Char) :
    digitsVal (ds ++ [c]) = digitsVal ds * 10 + (c.toNat - 48) := by
  rw [digitsVal, digitsVal, List.foldl_append]
  rfl

theorem natDecimalDigits_zero (fuel : Nat) : natDecimalDigits fuel 0 = [] := by
  cases fuel with
  | zero => rfl
  | succ f => rw [natDecimalDigits, if_pos rfl]

theorem toNat_digitChar (d : Nat) (hd : d < 10) : (Char.ofNat (48 + d)).toNat = 48 + d := by
  interval_cases d <;> decide

theorem digitsVal_natDecimalDigits : ∀ fuel n, n ≤ fuel →
    digitsVal (natDecimalDigits fuel n) = n := by
  intro fuel
  induction fuel with
  | zero =>
      intro n hn
      rw [Nat.le_zero.mp hn]
      rfl
  | succ f ih =>
      intro n hn
      by_cases h0 : n = 0
      · rw [h0, natDecimalDigits_zero]
        rfl
      · rw [natDecimalDigits, if_neg h0, digitsVal_append_digit,
          ih (n / 10) (by omega), toNat_digitChar (n % 10) (Nat.mod_lt n (by omega))]
        omega

theorem natDecimalDigits_fuel_irrel : ∀ f1 : Nat, ∀ n, n ≤ f1 → ∀ f2, n ≤ f2 →
    natDecimalDigits f1 n = natDecimalDigits f2 n := by
  intro f1
  induction f1 with
  | zero =>
      intro n hn f2 hn2
      rw [Nat.le_zero.mp hn, natDecimalDigits_zero, natDecimalDigits_zero]
  | succ f ih =>
      intro n hn f2 hn2
      by_cases h0 : n = 0
      · rw [h0, natDecimalDigits_zero, natDecimalDigits_zero]
      · cases f2 with
        | zero => omega
        | succ f2p =>
            rw [natDecimalDigits, if_neg h0, natDecimalDigits, if_neg h0,
              ih (n / 10) (by omega) f2p (by omega)]

theorem natDecimalDigits_shape : ∀ fuel n, 1 ≤ n → n ≤ fuel →
    ∃ c cs, natDecimalDigits fuel n = c :: cs ∧
      ('1' ≤ c ∧ c ≤ '9') ∧ ∀ d ∈ cs, '0' ≤ d ∧ d ≤ '9' := by
  intro fuel
  induction fuel with
  | zero =>
      intro n h1 h2
      omega
  | succ f ih =>
      intro n h1 h2
      rw [natDecimalDigits, if_neg (by omega)]
      by_cases hsmall : n < 10
      · have hq : n / 10 = 0 := by omega
        rw [hq, natDecimalDigits_zero, List.nil_append]
        refine ⟨Char.ofNat (48 + n % 10), [], rfl, ?_, by simp⟩
        have hm : n % 10 = n := by omega
        rw [hm]
        interval_cases n <;> exact ⟨by decide, by decide⟩
      · obtain ⟨c, cs, heq, hc, hcs⟩ := ih (n / 10) (by omega) (by omega)
        rw [heq, List.cons_append]
        refine ⟨c, cs ++ [Char.ofNat (48 + n % 10)], rfl, hc, ?_⟩
        intro d hd
        rcases List.mem_append.mp hd with hd | hd
        · exact hcs d hd
        · simp only [List.mem_singleton] at hd
          subst hd
          have hm : n % 10 < 10 := Nat.mod_lt n (by omega)
          constructor
          · interval_cases hh : (n % 10) <;> decide
          · interval_cases hh : (n % 10) <;> decide

theorem isValidVersion_iff (s : String) :
    isValidVersion s = true ↔ ∃ c cs, s.data = c :: cs ∧ ('1' ≤ c ∧ c ≤ '9') ∧
      ∀ d ∈ cs, ('0' ≤ d ∧ d ≤ '9') := by
  rw [isValidVersion.eq_def]
  rcases h : s.toList with _ | ⟨c, cs⟩
  · have h' : s.data = [] := h
    simp [h']
  · have h' : s.data = c :: cs := h
    rw [h']
    simp only [Bool.and_eq_true, decide_eq_true_eq, List.all_eq_true, List.cons.injEq]
    constructor
    · rintro ⟨⟨h1, h2⟩, h3⟩
      exact ⟨c, cs, ⟨rfl, rfl⟩, ⟨h1, h2⟩, h3⟩
    · rintro ⟨c2, cs2, ⟨rfl, rfl⟩, ⟨h1, h2⟩, h3⟩
      exact ⟨⟨h1, h2⟩, h3⟩

theorem isValidVersion_natToDecimal (v : Nat) (hv : 1 ≤ v) :
    isValidVersion (natToDecimal v) = true := by
  rw [isValidVersion_iff]
  rw [natToDecimal, if_neg (by omega)]
  obtain ⟨c, cs, heq, hc, hcs⟩ := natDecimalDigits_shape (v + 1) v hv (by omega)
  exact ⟨c, cs, heq, hc, hcs⟩

theorem jsNumberNat_natToDecimal (v : Nat) : jsNumberNat (natToDecimal v) = v := by
  by_cases h0 : v = 0
  · rw [h0]
    decide
  · rw [natToDecimal, if_neg h0, jsNumberNat_eq_digitsVal]
    exact digitsVal_natDecimalDigits (v + 1) v (by omega)

theorem digitsVal_ge_first (cs : List Char) : ∀ acc, acc ≤
    cs.foldl (fun acc c => acc * 10 + (c.toNat - '0'.toNat)) acc := by
  induction cs with
  | nil =>
      intro acc
      exact le_refl acc
  | cons c cs ih =>
      intro acc
      calc acc ≤ acc * 10 + (c.toNat - '0'.toNat) := by omega
        _ ≤ _ := ih _

theorem natToDecimal_digitsVal : ∀ ds : List Char, ∀ c : Char, '1' ≤ c → c ≤ '9' →
    (∀ d ∈ ds, '0' ≤ d ∧ d ≤ '9') →
    ∀ fuel, digitsVal (c :: ds) ≤ fuel →
    natDecimalDigits fuel (digitsVal (c :: ds)) = c :: ds := by
  intro ds
  induction ds using List.reverseRecOn with
  | nil =>
      intro c hc1 hc2 _ fuel hfuel
      have h48 : '0'.toNat = 48 := rfl
      have hval : digitsVal [c] = c.toNat - 48 := by
        show 0 * 10 + (c.toNat - '0'.toNat) = c.toNat - 48
        rw [h48]
        omega
      rw [hval] at hfuel ⊢
      have hc1' : 49 ≤ c.toNat := hc1
      have hc2' : c.toNat ≤ 57 := hc2
      cases fuel with
      | zero => omega
      | succ f =>
          rw [natDecimalDigits, if_neg (by omega)]
          have hq : (c.toNat - 48) / 10 = 0 := by omega
          have hm : (c.toNat - 48) % 10 = c.toNat - 48 := by omega
          rw [hq, natDecimalDigits_zero, List.nil_append, hm,
            show 48 + (c.toNat - 48) = c.toNat from by omega, Char.ofNat_toNat]
  | append_singleton ds d ihds =>
      intro c hc1 hc2 hdigits fuel hfuel
      have hd : '0' ≤ d ∧ d ≤ '9' := hdigits d (by simp)
      have hd1 : 48 ≤ d.toNat := hd.1
      have hd2 : d.toNat ≤ 57 := hd.2
      have hval : digitsVal (c :: (ds ++ [d])) =
          digitsVal (c :: ds) * 10 + (d.toNat - 48) := by
        rw [← List.cons_append, digitsVal_append_digit]
      have hge : 1 ≤ digitsVal (c :: ds) := by
        have hc1' : 49 ≤ c.toNat := hc1
        have h48 : '0'.toNat = 48 := rfl
        have hstep : digitsVal (c :: ds) =
            ds.foldl (fun acc x => acc * 10 + (x.toNat - '0'.toNat))
              (0 * 10 + (c.toNat - '0'.toNat)) := rfl
        have hbase : 1 ≤ 0 * 10 + (c.toNat - '0'.toNat) := by
          rw [h48]
          omega
        rw [hstep]
        exact le_trans hbase (digitsVal_ge_first ds _)
      rw [hval] at hfuel ⊢
      cases fuel with
      | zero => omega
      | succ f =>
          rw [natDecimalDigits, if_neg (by omega)]
          have hq : (digitsVal (c :: ds) * 10 + (d.toNat - 48)) / 10 =
              digitsVal (c :: ds) := by omega
          have hm : (digitsVal (c :: ds) * 10 + (d.toNat - 48)) % 10 = d.toNat - 48 := by
            omega
          rw [hq, hm, show 48 + (d.toNat - 48) = d.toNat from by omega, Char.ofNat_toNat,
            ihds c hc1 hc2 (fun x hx => hdigits x (by simp [hx])) f (by omega),
            List.cons_append]

theorem natToDecimal_jsNumberNat (vs : String) (hvalid : isValidVersion vs = true) :
    natToDecimal (jsNumberNat vs) = vs := by
  obtain ⟨c, cs, hds, ⟨hc1, hc2⟩, hcs⟩ := (isValidVersion_iff vs).mp hvalid
  have hval : jsNumberNat vs = digitsVal (c :: cs) := by
    rw [jsNumberNat_eq_digitsVal, hds]
  have hge : 1 ≤ digitsVal (c :: cs) := by
    have hc1' : 49 ≤ c.toNat := hc1
    have h48 : '0'.toNat = 48 := rfl
    have hstep : digitsVal (c :: cs) =
        cs.foldl (fun acc x => acc * 10 + (x.toNat - '0'.toNat))
          (0 * 10 + (c.toNat - '0'.toNat)) := rfl
    have hbase : 1 ≤ 0 * 10 + (c.toNat - '0'.toNat) := by
      rw [h48]
      omega
    rw [hstep]
    exact le_trans hbase (digitsVal_ge_first cs _)
  rw [hval, natToDecimal, if_neg (by omega),
    natToDecimal_digitsVal cs c hc1 hc2 hcs (digitsVal (c :: cs) + 1) (by omega)]
  exact (String.ext hds).symm

theorem jsNumberNat_inj_on_valid (vs1 vs2 : String)
    (h1 : isValidVersion vs1 = true) (h2 : isValidVersion vs2 = true)
    (h : jsNumberNat vs1 = jsNumberNat vs2) : vs1 = vs2 := by
  rw [← natToDecimal_jsNumberNat vs1 h1, ← natToDecimal_jsNumberNat vs2 h2, h]


/-! ### Registry membership and ordering -/

theorem mem_voiceRows_iff (fs : VoicesRootFS) (lv : LocalVoice) :
    lv ∈ voiceRows fs ↔
      ∃ e ∈ fs.entries, e.isDirectory = true ∧ isValidVoiceName e.name = true ∧
        ∃ ve ∈ fs.subEntries e.name, ve.isDirectory = true ∧
          isValidVersion ve.name = true ∧
          fs.safetensorsExists e.name (jsNumberNat ve.name) = true ∧
          lv = ⟨e.name, jsNumberNat ve.name,
            e.name ++ "/" ++ natToDecimal (jsNumberNat ve.name) ++
              "/voice.safetensors"⟩ := by
  rw [voiceRows, List.mem_flatMap]
  constructor
  · rintro ⟨e, he, hlv⟩
    by_cases hP : (e.isDirectory && isValidVoiceName e.name) = true
    · rw [if_pos hP] at hlv
      simp only [Bool.and_eq_true] at hP
      simp only [List.mem_map, List.mem_filter, jsSortBy, List.mem_insertionSort] at hlv
      obtain ⟨v, ⟨⟨ve, ⟨hve, hcond⟩, hnum⟩, hex⟩, hlveq⟩ := hlv
      simp only [Bool.and_eq_true] at hcond
      refine ⟨e, he, hP.1, hP.2, ve, hve, hcond.1, hcond.2, ?_, ?_⟩
      · rw [hnum]
        exact hex
      · rw [← hlveq, hnum]
    · rw [if_neg hP] at hlv
      simp at hlv
  · rintro ⟨e, he, hdir, hname, ve, hve, hvdir, hvver, hex, hlveq⟩
    refine ⟨e, he, ?_⟩
    rw [if_pos (by rw [hdir, hname]; rfl)]
    simp only [List.mem_map, List.mem_filter, jsSortBy, List.mem_insertionSort]
    exact ⟨jsNumberNat ve.name, ⟨⟨ve, ⟨hve, by rw [hvdir, hvver]; rfl⟩, rfl⟩, hex⟩,
      hlveq.symm⟩

/-- A filesystem state shaped like a real directory tree: the artifact file
for a (name, version) pair can only exist when the name is listed as a
directory in the root and the canonical decimal version is listed as a
directory under the name. -/
def VoicesRootFS.WellFormed (fs : VoicesRootFS) : Prop :=
  ∀ n v, fs.safetensorsExists n v = true →
    (⟨n, true⟩ : FSDirEntry) ∈ fs.entries ∧
    (⟨natToDecimal v, true⟩ : FSDirEntry) ∈ fs.subEntries n


theorem voiceRows_pairwise_distinct (fs : VoicesRootFS)
    (hnd : (fs.entries.map FSDirEntry.name).Nodup)
    (hnds : ∀ n, ((fs.subEntries n).map FSDirEntry.name).Nodup) :
    (voiceRows fs).Pairwise
      (fun a b => ¬(a.name = b.name ∧ a.version = b.version)) := by
  rw [voiceRows, List.pairwise_flatMap]
  constructor
  · intro e he
    by_cases hP : (e.isDirectory && isValidVoiceName e.name) = true
    · rw [if_pos hP]
      have hsubnodup : ((fs.subEntries e.name).filter
          (fun x => x.isDirectory && isValidVersion x.name)).Nodup :=
        (List.Nodup.of_map _ (hnds e.name)).filter _
      have hvernodup : (((fs.subEntries e.name).filter
          (fun x => x.isDirectory && isValidVersion x.name)).map
            (fun x => jsNumberNat x.name)).Nodup := by
        rw [List.nodup_map_iff_inj_on hsubnodup]
        intro x hx y hy hxy
        have hxv : isValidVersion x.name = true := by
          have := (List.mem_filter.mp hx).2
          simp only [Bool.and_eq_true] at this
          exact this.2
        have hyv : isValidVersion y.name = true := by
          have := (List.mem_filter.mp hy).2
          simp only [Bool.and_eq_true] at this
          exact this.2
        have hnames : x.name = y.name := jsNumberNat_inj_on_valid _ _ hxv hyv hxy
        exact List.inj_on_of_nodup_map (hnds e.name) (List.mem_filter.mp hx).1
          (List.mem_filter.mp hy).1 hnames
      have hsortnodup : (jsSortBy compareVersionsDesc
          (((fs.subEntries e.name).filter
            (fun x => x.isDirectory && isValidVersion x.name)).map
              (fun x => jsNumberNat x.name))).Nodup :=
        (List.perm_insertionSort _ _).symm.nodup hvernodup
      have hfilternodup := hsortnodup.filter
        (fun v => fs.safetensorsExists e.name v)
      rw [List.pairwise_map]
      refine List.Pairwise.imp ?_ hfilternodup
      intro v1 v2 hne
      rintro ⟨_, hveq⟩
      exact hne hveq
    · rw [if_neg hP]
      simp
  · have hpn : fs.entries.Pairwise (fun a b => a.name ≠ b.name) :=
      List.pairwise_map.mp hnd
    refine List.Pairwise.imp ?_ hpn
    intro a b hab
    intro x hx y hy
    rintro ⟨hn, _⟩
    apply hab
    have hxa : x.name = a.name := by
      by_cases hPa : (a.isDirectory && isValidVoiceName a.name) = true
      · rw [if_pos hPa] at hx
        simp only [List.mem_map] at hx
        obtain ⟨v, _, hveq⟩ := hx
        rw [← hveq]
      · rw [if_neg hPa] at hx
        simp at hx
    have hyb : y.name = b.name := by
      by_cases hPb : (b.isDirectory && isValidVoiceName b.name) = true
      · rw [if_pos hPb] at hy
        simp only [List.mem_map] at hy
        obtain ⟨v, _, hveq⟩ := hy
        rw [← hveq]
      · rw [if_neg hPb] at hy
        simp at hy
    rw [← hxa, ← hyb]
    exact hn

/-- C3: over a well-formed filesystem state with duplicate-free directory
listings, `listLocalVoices` returns exactly the (name, version) pairs
whose name matches the voice-name pattern, whose version renders as a
positive decimal with no leading zeros, and whose
`<root>/<name>/<version>/voice.safetensors` exists — sorted by name
ascending and, within one name, by version descending. -/
theorem listLocalVoices_exact_sorted (fs : VoicesRootFS)
    (hwf : fs.WellFormed)
    (hnd : (fs.entries.map FSDirEntry.name).Nodup)
    (hnds : ∀ n, ((fs.subEntries n).map FSDirEntry.name).Nodup) :
    (∀ n v, (∃ lv ∈ listLocalVoices fs, lv.name = n ∧ lv.version = v) ↔
      (isValidVoiceName n = true ∧ isValidVersion (natToDecimal v) = true ∧
        fs.safetensorsExists n v = true)) ∧
    (listLocalVoices fs).Pairwise (fun a b =>
      charListLt a.name.data b.name.data = true ∨
        (a.name = b.name ∧ b.version < a.version)) := by
  constructor
  · intro n v
    constructor
    · rintro ⟨lv, hmem, rfl, rfl⟩
      rw [listLocalVoices, jsSortBy, List.mem_insertionSort, mem_voiceRows_iff] at hmem
      obtain ⟨e, he, hdir, hname, ve, hve, hvdir, hvver, hex, hlveq⟩ := hmem
      subst hlveq
      refine ⟨hname, ?_, hex⟩
      rw [natToDecimal_jsNumberNat ve.name hvver]
      exact hvver
    · rintro ⟨hname, hver, hex⟩
      obtain ⟨hentry, hsub⟩ := hwf n v hex
      refine ⟨⟨n, v, n ++ "/" ++ natToDecimal v ++ "/voice.safetensors"⟩, ?_, rfl, rfl⟩
      rw [listLocalVoices, jsSortBy, List.mem_insertionSort, mem_voiceRows_iff]
      refine ⟨⟨n, true⟩, hentry, rfl, hname, ⟨natToDecimal v, true⟩, hsub, rfl, ?_, ?_, ?_⟩
      · exact hver
      · rw [jsNumberNat_natToDecimal]
        exact hex
      · rw [jsNumberNat_natToDecimal]
  · haveI : IsTotal LocalVoice (fun a b => compareVoices a b ≤ 0) :=
      ⟨compareVoices_le_total⟩
    haveI : IsTrans LocalVoice (fun a b => compareVoices a b ≤ 0) :=
      ⟨fun _ _ _ => compareVoices_le_trans⟩
    have hsorted : (listLocalVoices fs).Pairwise (fun a b => compareVoices a b ≤ 0) :=
      List.sorted_insertionSort (fun a b => compareVoices a b ≤ 0) (voiceRows fs)
    have hdistinct : (listLocalVoices fs).Pairwise
        (fun a b => ¬(a.name = b.name ∧ a.version = b.version)) := by
      rw [listLocalVoices, jsSortBy]
      exact ((List.perm_insertionSort _ _).pairwise_iff
        (fun h => fun ⟨h1, h2⟩ => h ⟨h1.symm, h2.symm⟩)).mpr
        (voiceRows_pairwise_distinct fs hnd hnds)
    refine List.Pairwise.imp₂ ?_ hsorted hdistinct
    intro a b hle hne
    rcases (compareVoices_le_iff a b).mp hle with h | ⟨h1, h2⟩
    · exact Or.inl h
    · refine Or.inr ⟨h1, ?_⟩
      rcases lt_or_eq_of_le h2 with h | h
      · exact h
      · exact absurd ⟨h1, h.symm⟩ hne


/-- A small concrete registry state for exercising the registry theorems. -/
def demoRegistryFS : VoicesRootFS where
  entries := [⟨"bob", true⟩]
  subEntries := fun n => if n = "bob" then [⟨"1", true⟩] else []
  safetensorsExists := fun n v => n = "bob" && v = 1

theorem listLocalVoices_exact_sorted_witness :
    demoRegistryFS.WellFormed ∧
    (demoRegistryFS.entries.map FSDirEntry.name).Nodup ∧
    (∀ n, ((demoRegistryFS.subEntries n).map FSDirEntry.name).Nodup) ∧
    ((∀ n v, (∃ lv ∈ listLocalVoices demoRegistryFS, lv.name = n ∧ lv.version = v) ↔
      (isValidVoiceName n = true ∧ isValidVersion (natToDecimal v) = true ∧
        demoRegistryFS.safetensorsExists n v = true)) ∧
    (listLocalVoices demoRegistryFS).Pairwise (fun a b =>
      charListLt a.name.data b.name.data = true ∨
        (a.name = b.name ∧ b.version < a.version))) := by
  have hwf : demoRegistryFS.WellFormed := by
    intro n v h
    simp only [demoRegistryFS, Bool.and_eq_true, decide_eq_true_eq] at h
    obtain ⟨rfl, rfl⟩ := h
    exact ⟨by decide, by decide⟩
  have hnd : (demoRegistryFS.entries.map FSDirEntry.name).Nodup := by decide
  have hnds : ∀ n, ((demoRegistryFS.subEntries n).map FSDirEntry.name).Nodup := by
    intro n
    show ((if n = "bob" then [(⟨"1", true⟩ : FSDirEntry)] else []).map
      FSDirEntry.name).Nodup
    by_cases h : n = "bob"
    · rw [if_pos h]
      decide
    · rw [if_neg h]
      decide
  exact ⟨hwf, hnd, hnds, listLocalVoices_exact_sorted demoRegistryFS hwf hnd hnds⟩

end PocketTTS
